import Mathlib

/-!
# Verification of a propositional-logic toolkit

A shallow embedding of `propositions/syntax.py` and `propositions/semantics.py`
("Mathematical Logic through Python" exercise solutions), together with proofs
about the parser/printer round trip, model enumeration, the semantic
evaluator, the tautology/contradiction/satisfiability classifiers, and the
DNF/CNF synthesis algorithms.

Python strings are modelled as `List Char`.  Python's `str.isdecimal` is
modelled by `Char.isDigit`; these agree on all ASCII input (the documented
input alphabet), differing only on non-ASCII Unicode decimal digits.

Python functions with `assert` preconditions or reachable run-time errors are
modelled as `Option`-returning functions where `none` stands for the raised
exception (AssertionError / IndexError / TypeError); pure code paths are
modelled directly.
-/

set_option autoImplicit false

/-- `is_variable` of `syntax.py`: a letter in `p`..`z` optionally followed by
decimal digits.  (Python indexes `string[0]`, so it is never called on the
empty string; we return `false` there.) -/
def is_variable : List Char → Bool
  | [] => false
  | c :: cs => ('p' ≤ c && c ≤ 'z') && (cs.isEmpty || cs.all (fun d => d.isDigit))

/-- `is_constant` of `syntax.py`: the string is `T` or `F`. -/
def is_constant (l : List Char) : Bool :=
  l = ['T'] || l = ['F']

/-- `is_unary` of `syntax.py`: the string is `~`. -/
def is_unary (l : List Char) : Bool :=
  l = ['~']

/-- `is_binary` of `syntax.py`: the string is `&`, `|` or `->`. -/
def is_binary (l : List Char) : Bool :=
  l = ['&'] || l = ['|'] || l = ['-', '>']

/-- The three binary operators accepted by `Formula.__init__`. -/
inductive BinOp where
  | and
  | or
  | imp
  deriving DecidableEq, Repr

/-- The string spelling of a binary operator, as used by `Formula.__repr__`. -/
def opChars : BinOp → List Char
  | BinOp.and => ['&']
  | BinOp.or => ['|']
  | BinOp.imp => ['-', '>']

/-- The `Formula` tree of `syntax.py`.  The constructor asserts of
`Formula.__init__` make a constructible object exactly one of: a variable
(root a variable name), a constant (`T`/`F`, stored as a `Bool`), a unary
node (the only unary operator is `~`), or a binary node with one of the
three binary operators. -/
inductive Formula where
  | var (name : List Char)
  | const (b : Bool)
  | unary (first : Formula)
  | binary (op : BinOp) (first second : Formula)
  deriving DecidableEq, Repr

/-- Constructibility in Python: `Formula.__init__` asserts `is_variable(root)`
for a variable node; the other shapes carry no further string data. -/
def WFb : Formula → Bool
  | Formula.var name => is_variable name
  | Formula.const _ => true
  | Formula.unary f => WFb f
  | Formula.binary _ f g => WFb f && WFb g

/-- `WF f`: the formula tree is constructible by `Formula.__init__`. -/
def WF (f : Formula) : Prop := WFb f = true

/-- `Formula.__repr__` of `syntax.py`: variables and constants print as
themselves, `~` is prefixed, every binary application is fully
parenthesised. -/
def reprF : Formula → List Char
  | Formula.var name => name
  | Formula.const b => if b then ['T'] else ['F']
  | Formula.unary f => '~' :: reprF f
  | Formula.binary op f g => '(' :: (reprF f ++ opChars op ++ reprF g ++ [')'])

/-- `Formula.variables` of `syntax.py`.  Python returns a `set`; we return a
duplicate-free list (Python's set iteration order is unspecified, and every
use below is invariant under the order). -/
def variablesList : Formula → List (List Char)
  | Formula.var name => [name]
  | Formula.const _ => []
  | Formula.unary f => variablesList f
  | Formula.binary _ f g => (variablesList f).union (variablesList g)

/-! ## The token scanner `parse_str` -/

/-- The balanced-parenthesis scan inside `parse_str`: walks the string with a
nesting counter, stopping (Python `break`) at the first character that is not
a parenthesis while the counter is zero.  Returns the Python loop's final
`ind` (position of the break, or, via the `for`/`else` clause, the string
length) together with the final counter. -/
def paren_scan : List Char → Int → Nat → (Nat × Int)
  | [], counter, ind => (ind, counter)
  | e :: es, counter, ind =>
    if e = '(' then paren_scan es (counter + 1) (ind + 1)
    else if e = ')' then paren_scan es (counter - 1) (ind + 1)
    else if counter = 0 then (ind, counter)
    else paren_scan es counter (ind + 1)

/-- `parse_str` of `syntax.py`: split a non-empty string into its first
lexical unit and the remaining suffix.  (Python indexes `string[0]`, so it is
never called on the empty string; we return `([], [])` there.) -/
def parse_str : List Char → (List Char × List Char)
  | [] => ([], [])
  | c :: cs =>
    if is_variable [c] then
      (c :: cs.takeWhile (fun d => d.isDigit), cs.dropWhile (fun d => d.isDigit))
    else if c = '-' && cs.head? = some '>' then
      (['-', '>'], cs.tail)
    else if c = '(' then
      let r := paren_scan (c :: cs) 0 0
      if r.2 ≠ 0 then ([c], cs)
      else ((c :: cs).take r.1, (c :: cs).drop r.1)
    else ([c], cs)

/-! ## The recursive-descent parser `_parse_prefix` -/

/-- Outcome of a call to `Formula._parse_prefix`:
`ok f rest` is a normal return of `(formula, unparsed suffix)`;
`fail msg` is a normal return of `(None, error message)`;
`crash` is an escaped `AssertionError` from `Formula.__init__` (constructing
a node with a `None` operand);
`out` is an artefact of the fuel-indexed embedding (insufficient fuel) and
corresponds to no Python behaviour. -/
inductive ParseRes where
  | ok (f : Formula) (rest : List Char)
  | fail (msg : List Char)
  | crash
  | out
  deriving DecidableEq, Repr

/-- Python's view of a `(formula-or-None, string)` return value. -/
def toPair : ParseRes → Option Formula × List Char
  | ParseRes.ok f r => (some f, r)
  | ParseRes.fail m => (none, m)
  | ParseRes.crash => (none, [])
  | ParseRes.out => (none, [])

def msgEmpty : List Char := "string not found!".data
def msgUnary : List Char := " is unary not a valid formula!".data
def msgNotClosed : List Char := "some of '(' are not closed!".data
def msgOneFormula : List Char := "there should be two formulas but one found!".data
def msgConnective : List Char := "wrong connective is been used!".data
def msgNotValid : List Char := " is not a valid formula!".data
def msgCouldnt : List Char := "couldn't parse ".data

/-- `Formula(first)` on a variable or constant token. -/
def mkLeaf (tok : List Char) : Formula :=
  if is_variable tok then Formula.var tok else Formula.const (tok = ['T'])

/-- The binary operator of a token for which `is_binary` holds. -/
def binOf (tok : List Char) : BinOp :=
  if tok = ['&'] then BinOp.and else if tok = ['|'] then BinOp.or else BinOp.imp

/-- `Formula(connective, first_f, second_f)`: a `None` operand trips the
constructor assert. -/
def finishParen (ff sf : Option Formula) (conn rest : List Char) : ParseRes :=
  match ff, sf with
  | some l, some r => ParseRes.ok (Formula.binary (binOf conn) l r) rest
  | _, _ => ParseRes.crash

/-- The parenthesised-group branch of `_parse_prefix` (the token `first`
starts with `(`): parse the stripped interior as the left operand, scan the
connective, parse the rest of the interior as the right operand requiring
full consumption. -/
def parenBranch (recur : List Char → ParseRes) (first rest : List Char) : ParseRes :=
  if first = ['('] then ParseRes.fail msgNotClosed
  else
    match recur first.tail.dropLast with
    | ParseRes.crash => ParseRes.crash
    | ParseRes.out => ParseRes.out
    | r1 =>
      let fp := toPair r1
      if fp.2 = [] then ParseRes.fail msgOneFormula
      else
        let q := parse_str fp.2
        if is_binary q.1 = false then ParseRes.fail msgConnective
        else
          match recur q.2 with
          | ParseRes.crash => ParseRes.crash
          | ParseRes.out => ParseRes.out
          | r2 =>
            let sp := toPair r2
            if sp.2 = [] then finishParen fp.1 sp.1 q.1 rest
            else if sp.1 = none then ParseRes.fail (sp.2 ++ msgNotValid)
            else ParseRes.fail (msgCouldnt ++ sp.2 ++ ['!'])

/-- `Formula._parse_prefix` of `syntax.py`, indexed by a recursion-depth fuel
(the Python recursion is not structurally decreasing on the string, because
failing sub-parses feed error messages back into the scanner).  `out` is
returned exactly when the fuel runs out; every theorem below either supplies
sufficient fuel explicitly or quantifies over it. -/
def parsePrefixF : Nat → List Char → ParseRes
  | 0, _ => ParseRes.out
  | Nat.succ n, s =>
    if s = [] then ParseRes.fail msgEmpty
    else
      let first := (parse_str s).1
      let rest := (parse_str s).2
      if is_variable first || is_constant first then ParseRes.ok (mkLeaf first) rest
      else if is_binary first then ParseRes.fail s
      else if is_unary first then
        (if rest = [] then ParseRes.fail (first ++ msgUnary)
         else
           match parsePrefixF n rest with
           | ParseRes.ok f r => ParseRes.ok (Formula.unary f) r
           | ParseRes.fail _ => ParseRes.crash
           | ParseRes.crash => ParseRes.crash
           | ParseRes.out => ParseRes.out)
      else if first.head? = some '(' then parenBranch (parsePrefixF n) first rest
      else ParseRes.fail (s ++ msgNotValid)

/-- `Formula.is_formula` of `syntax.py`: true iff the second component of
`_parse_prefix` is falsy (the empty string).  `none` models an escaped
exception (or exhausted fuel). -/
def is_formula (n : Nat) (s : List Char) : Option Bool :=
  match parsePrefixF n s with
  | ParseRes.ok _ r => some r.isEmpty
  | ParseRes.fail m => some m.isEmpty
  | ParseRes.crash => none
  | ParseRes.out => none

/-- `Formula.parse` of `syntax.py`: asserts `is_formula` and returns the
parsed formula.  (A `fail` with an empty message would make Python return
`None` here; `parsePrefixF_fail_ne_nil` below shows that never happens.) -/
def parse (n : Nat) (s : List Char) : Option Formula :=
  match parsePrefixF n s with
  | ParseRes.ok f r => if r.isEmpty then some f else none
  | _ => none

/-- `Formula.substitute_variables` of `syntax.py`.  The method body contains
only the key-validation asserts and a task placeholder comment, so after the
asserts Python falls off the end and returns `None`.  Outer `none` models the
`AssertionError` on an invalid key; `some none` is the actual return value
(`None`, not a `Formula`). -/
def substitute_variables (f : Formula) (substitution_map : List (List Char × Formula)) :
    Option (Option Formula) :=
  if substitution_map.all (fun p => is_variable p.1) then some none else none

/-! ## Semantics: models and evaluation -/

/-- A model: a mapping from variable names to truth values (`semantics.py`
builds these as `dict`s; we use insertion-ordered association lists with
unique keys, matching `dict` key order). -/
abbrev Model := List (List Char × Bool)

/-- Key lookup in a model (`model[name]` on a Python `dict`; keys are unique
in every model the code builds, so first-match lookup agrees). -/
def mlookup : Model → List Char → Option Bool
  | [], _ => none
  | (k, b) :: rest, name => if k = name then some b else mlookup rest name

/-- `evaluate` of `semantics.py`.  Python asserts that the model is
sufficient for the formula and raises `KeyError` otherwise; we totalise the
variable case with `.getD false` and carry sufficiency as a hypothesis in the
theorems, exactly as the code's `assert` does. -/
def evaluate : Formula → Model → Bool
  | Formula.var name, m => (mlookup m name).getD false
  | Formula.const b, _ => b
  | Formula.unary f, m => !(evaluate f m)
  | Formula.binary BinOp.or f g, m => evaluate f m || evaluate g m
  | Formula.binary BinOp.and f g, m => evaluate f m && evaluate g m
  | Formula.binary BinOp.imp f g, m => !(evaluate f m) || evaluate g m

/-! ## Model enumeration `all_models` -/

/-- Python `dict` merge `d1 | d2`: keys of `d1` in order (values overridden
by `d2` where present), then the keys of `d2` not in `d1`, in order. -/
def dictMerge (d1 d2 : Model) : Model :=
  d1.map (fun p => (p.1, (mlookup d2 p.1).getD p.2)) ++
    d2.filter (fun p => (mlookup d1 p.1).isNone)

/-- The list of models produced by `all_models` on a non-empty variable list
(the value path of the Python code):
`all_models([v]) = [{v: False}, {v: True}]`, and otherwise the
`itertools.product` of `[{v: False}, {v: True}]` with the recursive call,
each pair merged with `|`.  (On `[]` the Python function returns `None`; see
`all_models` below.) -/
def allModelsList : List (List Char) → List Model
  | [] => []
  | [v] => [[(v, false)], [(v, true)]]
  | v :: rest =>
    ((allModelsList rest).map (fun m => dictMerge [(v, false)] m)) ++
      ((allModelsList rest).map (fun m => dictMerge [(v, true)] m))

/-- A Python return value that may be `None`. -/
inductive PyRes (α : Type) where
  | val (a : α)
  | pynone
  deriving DecidableEq, Repr

/-- `all_models` of `semantics.py`, with its observable Python behaviour: on
the empty list the `for` body never runs and the function returns `None`
(`pynone`); each recursion level asserts `is_variable` on the head (outer
`none` models the `AssertionError`).  The recursive call is only made on a
non-empty suffix, so its result is always a value; a `None` from recursion
would make `itertools.product` raise `TypeError`, which `none` also models. -/
def all_models_product (v : List Char) (sub : Option (PyRes (List Model))) :
    Option (PyRes (List Model)) :=
  match sub with
  | some (PyRes.val ms) =>
    some (PyRes.val ((ms.map (fun m => dictMerge [(v, false)] m)) ++
      (ms.map (fun m => dictMerge [(v, true)] m))))
  | _ => none

def all_models : List (List Char) → Option (PyRes (List Model))
  | [] => some PyRes.pynone
  | v :: rest =>
    if is_variable v = false then none
    else if rest.isEmpty then some (PyRes.val [[(v, false)], [(v, true)]])
    else all_models_product v (all_models rest)

/-! ## Classifiers -/

/-- `is_tautology` of `semantics.py`: enumerate `all_models` over the
formula's variables and require truth everywhere; for a variable-free formula
`all_models` returns the falsy `None` and the code evaluates once in the
model `{'p': True}`. -/
def is_tautology (f : Formula) : Bool :=
  let vars := variablesList f
  if vars.isEmpty then evaluate f [(['p'], true)]
  else (allModelsList vars).all (fun m => evaluate f m)

/-- `is_contradiction` of `semantics.py`: `is_tautology(Formula('~', f))`. -/
def is_contradiction (f : Formula) : Bool :=
  is_tautology (Formula.unary f)

/-- `is_satisfiable` of `semantics.py`: not a contradiction. -/
def is_satisfiable (f : Formula) : Bool :=
  !(is_contradiction f)

/-! ## Synthesis -/

/-- The literal chosen by `_synthesize_for_model` for one key/value pair:
`v` when the model assigns true, `~v` otherwise. -/
def litFor (key : List Char) (b : Bool) : Formula :=
  if b then Formula.var key else Formula.unary (Formula.var key)

/-- The conjunctive clause of `_synthesize_for_model`, totalised (the `[]`
case is unreachable there: Python asserts a non-empty model). -/
def clauseT : Model → Formula
  | [] => Formula.const false
  | kb :: rest =>
    rest.foldl (fun acc p => Formula.binary BinOp.and acc (litFor p.1 p.2)) (litFor kb.1 kb.2)

/-- `_synthesize_for_model` of `semantics.py`: asserts a valid non-empty
model (`none` models the `AssertionError`), then conjoins the literals
left-to-right. -/
def synthesize_for_model (m : Model) : Option Formula :=
  if (m.all (fun p => is_variable p.1)) = false then none
  else match m with
    | [] => none
    | _ :: _ => some (clauseT m)

/-- The disjunctive clause of `_synthesize_for_all_except_model`, totalised:
literal `~v` where the model assigns true, `v` otherwise, disjoined
left-to-right. -/
def dlitFor (key : List Char) (b : Bool) : Formula :=
  if b then Formula.unary (Formula.var key) else Formula.var key

def dclauseT : Model → Formula
  | [] => Formula.const false
  | kb :: rest =>
    rest.foldl (fun acc p => Formula.binary BinOp.or acc (dlitFor p.1 p.2)) (dlitFor kb.1 kb.2)

/-- `_synthesize_for_all_except_model` of `semantics.py`. -/
def synthesize_for_all_except_model (m : Model) : Option Formula :=
  if (m.all (fun p => is_variable p.1)) = false then none
  else match m with
    | [] => none
    | _ :: _ => some (dclauseT m)

/-- The `for ind, flag in enumerate(values)` loop of `synthesize`: collect
`_synthesize_for_model(models[ind])` for every true flag, in index order.
`none` models an escaped exception (`models[ind]` out of range, or a
`_synthesize_for_model` assert). -/
def buildAnds (models : List Model) : List Bool → Nat → Option (List Formula)
  | [], _ => some []
  | b :: bs, ind =>
    if b then
      match models.get? ind with
      | none => none
      | some m =>
        match synthesize_for_model m with
        | none => none
        | some c => (buildAnds models bs (ind + 1)).map (fun l => c :: l)
    else buildAnds models bs (ind + 1)

/-- `synthesize` of `semantics.py`: asserts a non-empty variable list, builds
one conjunctive clause per true row of the truth table (or the `v & ~v`
fallback clauses when no row is true), and disjoins the clauses
left-to-right.  `none` models any escaped exception (the assert, the
`all_models` asserts on invalid names, or an index error). -/
def synthesize (vars : List (List Char)) (values : List Bool) : Option Formula :=
  if vars.isEmpty then none
  else if (vars.all (fun v => is_variable v)) = false then none
  else
    match buildAnds (allModelsList vars) values 0 with
    | none => none
    | some ands0 =>
      let ands := if ands0.isEmpty then
          vars.map (fun v =>
            Formula.binary BinOp.and (Formula.var v) (Formula.unary (Formula.var v)))
        else ands0
      match ands with
      | [] => none
      | a :: rest => some (rest.foldl (fun acc c => Formula.binary BinOp.or acc c) a)

/-- The `for ind, flag in enumerate(values)` loop of `synthesize_cnf`:
collect `_synthesize_for_all_except_model(models[ind])` for every false flag,
in index order. -/
def buildClauses (models : List Model) : List Bool → Nat → Option (List Formula)
  | [], _ => some []
  | b :: bs, ind =>
    if b then buildClauses models bs (ind + 1)
    else
      match models.get? ind with
      | none => none
      | some m =>
        match synthesize_for_all_except_model m with
        | none => none
        | some c => (buildClauses models bs (ind + 1)).map (fun l => c :: l)

/-- `synthesize_cnf` of `semantics.py`: one disjunctive clause per false row
(or the `v | ~v` fallback clauses when no row is false), conjoined
left-to-right. -/
def synthesize_cnf (vars : List (List Char)) (values : List Bool) : Option Formula :=
  if vars.isEmpty then none
  else if (vars.all (fun v => is_variable v)) = false then none
  else
    match buildClauses (allModelsList vars) values 0 with
    | none => none
    | some clauses0 =>
      let clauses := if clauses0.isEmpty then
          vars.map (fun v =>
            Formula.binary BinOp.or (Formula.var v) (Formula.unary (Formula.var v)))
        else clauses0
      match clauses with
      | [] => none
      | c :: rest => some (rest.foldl (fun acc x => Formula.binary BinOp.and acc x) c)

/-! ## The spec's enumeration order, for comparison with `all_models` -/

/-- Modelled from the spec (§4.5): the ascending binary-counter assignment
number `i` over an ordered variable list, where the first variable is the
most-significant bit and `false` (bit 0) precedes `true`: the variable at
position `j` of the `n`-element list receives bit `n - 1 - j` of `i`. -/
def counterModel (V : List (List Char)) (i : Nat) : Model :=
  match V with
  | [] => []
  | v :: rest => (v, Nat.testBit i rest.length) :: counterModel rest i

/-- Modelled from the spec (§4.5): the full binary-counter enumeration, `i`
ascending from `0` to `2 ^ |V| - 1`. -/
def counterModels (V : List (List Char)) : List Model :=
  (List.range (2 ^ V.length)).map (counterModel V)

/-! ## Basic facts about the evaluator and the enumeration -/

theorem variablesList_unary (f : Formula) :
    variablesList (Formula.unary f) = variablesList f := rfl

theorem mem_variablesList_binary {v : List Char} (op : BinOp) (f g : Formula) :
    v ∈ variablesList (Formula.binary op f g) ↔ v ∈ variablesList f ∨ v ∈ variablesList g := by
  show v ∈ (variablesList f) ∪ (variablesList g) ↔ _
  exact List.mem_union_iff

/-- Models that agree on every variable of `f` give `f` the same value. -/
theorem evaluate_congr : ∀ (f : Formula) (m1 m2 : Model),
    (∀ v ∈ variablesList f, mlookup m1 v = mlookup m2 v) →
    evaluate f m1 = evaluate f m2
  | Formula.var name, m1, m2, h => by
    simp only [evaluate]
    rw [h name (by simp [variablesList])]
  | Formula.const b, _, _, _ => rfl
  | Formula.unary f, m1, m2, h => by
    simp only [evaluate]
    rw [evaluate_congr f m1 m2 h]
  | Formula.binary op f g, m1, m2, h => by
    have hf : evaluate f m1 = evaluate f m2 :=
      evaluate_congr f m1 m2 (fun v hv => h v ((mem_variablesList_binary op f g).2 (Or.inl hv)))
    have hg : evaluate g m1 = evaluate g m2 :=
      evaluate_congr g m1 m2 (fun v hv => h v ((mem_variablesList_binary op f g).2 (Or.inr hv)))
    cases op <;> simp only [evaluate] <;> rw [hf, hg]

theorem allModelsList_ne_nil : ∀ (V : List (List Char)), V ≠ [] → allModelsList V ≠ []
  | [], h => absurd rfl h
  | [_], _ => by simp [allModelsList]
  | v :: w :: rest, _ => by
    have ih := allModelsList_ne_nil (w :: rest) (by simp)
    simp only [allModelsList, ne_eq, List.append_eq_nil, List.map_eq_nil_iff]
    intro hcontra
    exact ih hcontra.1

/-- `f` and `~f` are never both tautologies (they are evaluated over the same
model list, and `evaluate` negates). -/
theorem not_tautology_both (f : Formula) :
    ¬(is_tautology f = true ∧ is_tautology (Formula.unary f) = true) := by
  rintro ⟨h1, h2⟩
  simp only [is_tautology, variablesList_unary] at h1 h2
  cases hvl : variablesList f with
  | nil =>
    rw [hvl] at h1 h2
    simp only [List.isEmpty_nil, if_true] at h1 h2
    rw [show evaluate (Formula.unary f) [(['p'], true)] = !(evaluate f [(['p'], true)]) from rfl,
      h1] at h2
    exact absurd h2 (by simp)
  | cons a as =>
    rw [hvl] at h1 h2
    simp only [List.isEmpty_cons, Bool.false_eq_true, if_false] at h1 h2
    have hne : allModelsList (a :: as) ≠ [] := allModelsList_ne_nil _ (by simp)
    obtain ⟨m, ms, hm⟩ := List.exists_cons_of_ne_nil hne
    rw [hm] at h1 h2
    simp only [List.all_cons, Bool.and_eq_true] at h1 h2
    have h3 := h2.1
    rw [show evaluate (Formula.unary f) m = !(evaluate f m) from rfl, h1.1] at h3
    exact absurd h3 (by simp)

/-! ## Claims C8, C9, C10 -/

/-- C8: for every formula exactly one of {tautology, contradiction,
(satisfiable and not tautology)} holds; `is_contradiction f` equals
`is_tautology (~f)`, and `is_satisfiable f` is the negation of
`is_contradiction f`. -/
theorem C8_classifier_consistency (f : Formula) :
    (is_contradiction f = is_tautology (Formula.unary f)) ∧
    (is_satisfiable f = !(is_contradiction f)) ∧
    ((is_tautology f = true ∧ ¬(is_contradiction f = true) ∧
        ¬(is_satisfiable f = true ∧ is_tautology f = false)) ∨
      (is_contradiction f = true ∧ ¬(is_tautology f = true) ∧
        ¬(is_satisfiable f = true ∧ is_tautology f = false)) ∨
      ((is_satisfiable f = true ∧ is_tautology f = false) ∧ ¬(is_tautology f = true) ∧
        ¬(is_contradiction f = true))) := by
  refine ⟨rfl, rfl, ?_⟩
  have key := not_tautology_both f
  cases ht : is_tautology f with
  | true =>
    cases hc : is_contradiction f with
    | true => exact absurd ⟨ht, hc⟩ key
    | false =>
      exact Or.inl ⟨rfl, by simp, fun h => absurd h.2 (by simp)⟩
  | false =>
    cases hc : is_contradiction f with
    | true =>
      exact Or.inr (Or.inl ⟨rfl, by simp,
        fun h => absurd h.1 (by simp [is_satisfiable, hc])⟩)
    | false =>
      exact Or.inr (Or.inr ⟨⟨by simp [is_satisfiable, hc], rfl⟩, by simp, by simp⟩)

/-- C9: `evaluate` computes, per node variant: the model's binding for a
variable, the literal value of a constant, Boolean negation for `~`, and
AND / OR / material implication for `&` / `|` / `->` (the latter false
exactly when the left operand is true and the right false).  Totality of the
Lean function is termination of the recursion. -/
theorem C9_evaluate_semantics :
    (∀ (name : List Char) (m : Model) (b : Bool),
        mlookup m name = some b → evaluate (Formula.var name) m = b) ∧
    (∀ m : Model, evaluate (Formula.const true) m = true) ∧
    (∀ m : Model, evaluate (Formula.const false) m = false) ∧
    (∀ (f : Formula) (m : Model), evaluate (Formula.unary f) m = !(evaluate f m)) ∧
    (∀ (f g : Formula) (m : Model),
        evaluate (Formula.binary BinOp.and f g) m = (evaluate f m && evaluate g m)) ∧
    (∀ (f g : Formula) (m : Model),
        evaluate (Formula.binary BinOp.or f g) m = (evaluate f m || evaluate g m)) ∧
    (∀ (f g : Formula) (m : Model),
        evaluate (Formula.binary BinOp.imp f g) m = !(evaluate f m && !(evaluate g m))) := by
  refine ⟨fun name m b h => ?_, fun _ => rfl, fun _ => rfl, fun _ _ => rfl,
    fun _ _ _ => rfl, fun _ _ _ => rfl, fun f g m => ?_⟩
  · simp [evaluate, h]
  · show (!(evaluate f m) || evaluate g m) = _
    cases evaluate f m <;> cases evaluate g m <;> rfl

/-- Witness for C9 at a concrete binding. -/
theorem C9_evaluate_semantics_witness :
    evaluate (Formula.var ['p']) [(['p'], true)] = true :=
  C9_evaluate_semantics.1 ['p'] [(['p'], true)] true rfl

/-- C10: the value of `evaluate` depends only on the bindings of the
formula's own variables — two sufficient models that agree there give the
same result. -/
theorem C10_evaluate_extensional (f : Formula) (m1 m2 : Model)
    (hs1 : ∀ v ∈ variablesList f, (mlookup m1 v).isSome = true)
    (hs2 : ∀ v ∈ variablesList f, (mlookup m2 v).isSome = true)
    (hagree : ∀ v ∈ variablesList f, mlookup m1 v = mlookup m2 v) :
    evaluate f m1 = evaluate f m2 :=
  evaluate_congr f m1 m2 hagree

/-- Witness for C10: an extra binding in the second model does not change
the value. -/
theorem C10_evaluate_extensional_witness :
    evaluate (Formula.binary BinOp.and (Formula.var ['p']) (Formula.unary (Formula.var ['q'])))
        [(['p'], true), (['q'], false)] =
      evaluate (Formula.binary BinOp.and (Formula.var ['p']) (Formula.unary (Formula.var ['q'])))
        [(['p'], true), (['q'], false), (['r'], true)] :=
  C10_evaluate_extensional _ _ _ (by decide) (by decide) (by decide)

/-! ## Claims C3, C4, C7: concrete divergences of the code -/

/-- C3 (code bug): parsing the rejected input `"~)"` does not return a
`(None, message)` pair — the unary branch passes the failed sub-parse's
`None` to `Formula('~', None)`, whose constructor assert raises an
`AssertionError` (modelled by `ParseRes.crash`), at every sufficient
recursion depth. -/
theorem C3_parser_crash_on_tilde_rparen (n : Nat) :
    parsePrefixF (n + 2) ['~', ')'] = ParseRes.crash := rfl

/-- C4 (code bug): `substitute_variables` is an unimplemented stub — on the
docstring's own example `((p->p)|r)` with `{p ↦ (q&r), r ↦ p}` it returns
Python `None` (`some none`) instead of the documented formula
`(((q&r)->(q&r))|p)`. -/
theorem C4_substitute_variables_stub :
    substitute_variables
        (Formula.binary BinOp.or
          (Formula.binary BinOp.imp (Formula.var ['p']) (Formula.var ['p']))
          (Formula.var ['r']))
        [(['p'], Formula.binary BinOp.and (Formula.var ['q']) (Formula.var ['r'])),
          (['r'], Formula.var ['p'])] = some none ∧
      some (none : Option Formula) ≠
        some (some (Formula.binary BinOp.or
          (Formula.binary BinOp.imp
            (Formula.binary BinOp.and (Formula.var ['q']) (Formula.var ['r']))
            (Formula.binary BinOp.and (Formula.var ['q']) (Formula.var ['r'])))
          (Formula.var ['p']))) := by
  exact ⟨rfl, by decide⟩

/-- C7 (code bug): on the empty variable list the `for` body of `all_models`
never executes, so the function returns Python `None` — not an empty
enumeration (its docstring promises an iterable; iterating `None` raises
`TypeError`). -/
theorem C7_all_models_nil_returns_none :
    all_models [] = some PyRes.pynone := rfl

/-! ## The structure of `allModelsList` -/

theorem mlookup_eq_none_iff (m : Model) (v : List Char) :
    mlookup m v = none ↔ v ∉ m.map Prod.fst := by
  induction m with
  | nil => simp [mlookup]
  | cons kb rest ih =>
    cases kb with
    | mk k b =>
      by_cases hk : k = v
      · subst hk
        simp [mlookup]
      · simp [mlookup, hk, ih, Ne.symm hk]

theorem dictMerge_single (v : List Char) (b : Bool) (m : Model)
    (hv : v ∉ m.map Prod.fst) : dictMerge [(v, b)] m = (v, b) :: m := by
  have hnone : mlookup m v = none := (mlookup_eq_none_iff m v).2 hv
  simp only [dictMerge, List.map_cons, List.map_nil, hnone, Option.getD_none]
  have hfilter : m.filter (fun p => (mlookup [(v, b)] p.1).isNone) = m := by
    rw [List.filter_eq_self]
    intro p hp
    have hne : v ≠ p.1 := by
      intro hcontra
      exact hv (hcontra ▸ List.mem_map_of_mem Prod.fst hp)
    simp [mlookup, hne]
  rw [hfilter]
  rfl

theorem allModelsList_keys :
    ∀ (V : List (List Char)), V.Nodup → ∀ m ∈ allModelsList V, m.map Prod.fst = V
  | [], _, m, hm => by simp [allModelsList] at hm
  | [v], _, m, hm => by
    simp only [allModelsList, List.mem_cons, List.mem_singleton] at hm
    rcases hm with h | h | h
    · simp [h]
    · simp [h]
    · simp at h
  | v :: w :: rest, hnd, m, hm => by
    have hndtail : (w :: rest).Nodup := hnd.of_cons
    have hvnot : v ∉ w :: rest := by
      intro hmem
      exact (List.nodup_cons.1 hnd).1 hmem
    simp only [allModelsList, List.mem_append, List.mem_map] at hm
    rcases hm with ⟨m', hm', rfl⟩ | ⟨m', hm', rfl⟩ <;>
    · have hkeys := allModelsList_keys (w :: rest) hndtail m' hm'
      rw [dictMerge_single _ _ _ (by rw [hkeys]; exact hvnot)]
      simp [hkeys]

/-- For a duplicate-free tail, the `dict` merges reduce to plain `cons`. -/
theorem allModelsList_cons_of_nodup (v w : List Char) (rest : List (List Char))
    (hnd : (v :: w :: rest).Nodup) :
    allModelsList (v :: w :: rest) =
      ((allModelsList (w :: rest)).map (fun m => (v, false) :: m)) ++
        ((allModelsList (w :: rest)).map (fun m => (v, true) :: m)) := by
  have hndtail : (w :: rest).Nodup := hnd.of_cons
  have hvnot : v ∉ w :: rest := fun hmem => (List.nodup_cons.1 hnd).1 hmem
  show ((allModelsList (w :: rest)).map (fun m => dictMerge [(v, false)] m)) ++
      ((allModelsList (w :: rest)).map (fun m => dictMerge [(v, true)] m)) = _
  congr 1 <;>
  · apply List.map_congr_left
    intro m hm
    exact dictMerge_single _ _ _
      (by rw [allModelsList_keys (w :: rest) hndtail m hm]; exact hvnot)

/-! ## `allModelsList` is the binary-counter enumeration -/

theorem counterModel_cons (v : List Char) (rest : List (List Char)) (i : Nat) :
    counterModel (v :: rest) i = (v, Nat.testBit i rest.length) :: counterModel rest i := rfl

/-- Adding `2 ^ k` for `k` at least the list length touches no consulted bit. -/
theorem counterModel_two_pow_add :
    ∀ (U : List (List Char)) (k i : Nat), U.length ≤ k →
      counterModel U (2 ^ k + i) = counterModel U i
  | [], _, _, _ => rfl
  | u :: rest, k, i, hk => by
    rw [counterModel_cons, counterModel_cons,
      counterModel_two_pow_add rest k i (le_of_lt (Nat.lt_of_lt_of_le (Nat.lt_succ_self _) hk)),
      Nat.testBit_two_pow_add_gt (Nat.lt_of_lt_of_le (Nat.lt_succ_self _) hk) i]

theorem allModelsList_eq_counterModels :
    ∀ (V : List (List Char)), V ≠ [] → V.Nodup → allModelsList V = counterModels V
  | [], h, _ => absurd rfl h
  | [v], _, _ => by
    simp [allModelsList, counterModels, counterModel, List.range_succ,
      show Nat.testBit 0 0 = false from rfl, show Nat.testBit 1 0 = true from rfl]
  | v :: w :: rest, _, hnd => by
    have ih := allModelsList_eq_counterModels (w :: rest) (by simp) hnd.of_cons
    have hpow : 2 ^ (v :: w :: rest).length =
        2 ^ (w :: rest).length + 2 ^ (w :: rest).length := by
      show 2 ^ ((w :: rest).length + 1) = _
      rw [pow_succ, Nat.mul_two]
    have hsplit : counterModels (v :: w :: rest) =
        ((List.range (2 ^ (w :: rest).length)).map (counterModel (v :: w :: rest))) ++
          ((List.range (2 ^ (w :: rest).length)).map
            (fun i => counterModel (v :: w :: rest) (2 ^ (w :: rest).length + i))) := by
      rw [counterModels, hpow, List.range_add, List.map_append, List.map_map]
      rfl
    rw [allModelsList_cons_of_nodup v w rest hnd, ih, hsplit]
    congr 1
    · rw [counterModels, List.map_map]
      apply List.map_congr_left
      intro i hi
      have hilt : i < 2 ^ (w :: rest).length := List.mem_range.1 hi
      show (v, false) :: counterModel (w :: rest) i =
        counterModel (v :: w :: rest) i
      rw [counterModel_cons v (w :: rest) i, Nat.testBit_eq_false_of_lt hilt]
    · rw [counterModels, List.map_map]
      apply List.map_congr_left
      intro i hi
      have hilt : i < 2 ^ (w :: rest).length := List.mem_range.1 hi
      show (v, true) :: counterModel (w :: rest) i =
        counterModel (v :: w :: rest) (2 ^ (w :: rest).length + i)
      rw [counterModel_cons v (w :: rest) (2 ^ (w :: rest).length + i),
        counterModel_two_pow_add (w :: rest) (w :: rest).length i (le_refl _),
        Nat.testBit_two_pow_add_eq, Nat.testBit_eq_false_of_lt hilt, Bool.not_false]

/-- On a non-empty list of valid variable names, `all_models` returns the
value computed by `allModelsList`. -/
theorem all_models_eq_val :
    ∀ (V : List (List Char)), V ≠ [] → (∀ v ∈ V, is_variable v = true) →
      all_models V = some (PyRes.val (allModelsList V))
  | [], h, _ => absurd rfl h
  | [v], _, hval => by
    have hv : is_variable v = true := hval v (by simp)
    simp [all_models, hv, allModelsList]
  | v :: w :: rest, _, hval => by
    have hv : is_variable v = true := hval v (by simp)
    have ih := all_models_eq_val (w :: rest) (by simp)
      (fun u hu => hval u (List.mem_cons_of_mem v hu))
    have hcons : all_models (v :: w :: rest) =
        all_models_product v (all_models (w :: rest)) := by
      show (if is_variable v = false then none
        else if (w :: rest).isEmpty then some (PyRes.val [[(v, false)], [(v, true)]])
        else all_models_product v (all_models (w :: rest))) = _
      rw [hv]
      rfl
    rw [hcons, ih]
    rfl

theorem allModelsList_length (V : List (List Char)) (hne : V ≠ []) (hnd : V.Nodup) :
    (allModelsList V).length = 2 ^ V.length := by
  rw [allModelsList_eq_counterModels V hne hnd, counterModels, List.length_map,
    List.length_range]

/-! ## Claim C5 -/

/-- C5: on a non-empty list of distinct variable names, `all_models` returns
exactly the `2 ^ n` total assignments in ascending binary-counter order: the
`i`-th model maps the `j`-th variable to bit `n - 1 - j` of `i`, so the first
variable is the most-significant bit and `false` precedes `true`. -/
theorem C5_all_models_counter_order (V : List (List Char)) (hne : V ≠ [])
    (hnd : V.Nodup) (hval : ∀ v ∈ V, is_variable v = true) :
    all_models V = some (PyRes.val (counterModels V)) := by
  rw [all_models_eq_val V hne hval, allModelsList_eq_counterModels V hne hnd]

/-- Witness for C5: `all_models(['p', 'q'])` is FF, FT, TF, TT in that
order. -/
theorem C5_all_models_counter_order_witness :
    all_models [['p'], ['q']] = some (PyRes.val
      [[(['p'], false), (['q'], false)], [(['p'], false), (['q'], true)],
        [(['p'], true), (['q'], false)], [(['p'], true), (['q'], true)]]) := by
  rw [C5_all_models_counter_order [['p'], ['q']] (by decide) (by decide) (by decide)]
  decide

/-! ## Evaluating synthesized clauses -/

theorem evaluate_litFor (k : List Char) (b : Bool) (m : Model) :
    evaluate (litFor k b) m = ((mlookup m k).getD false == b) := by
  cases b <;> cases hx : (mlookup m k).getD false <;> simp [litFor, evaluate, hx]

theorem evaluate_dlitFor (k : List Char) (b : Bool) (m : Model) :
    evaluate (dlitFor k b) m = !((mlookup m k).getD false == b) := by
  cases b <;> cases hx : (mlookup m k).getD false <;> simp [dlitFor, evaluate, hx]

theorem evaluate_foldl_and_lit (l : List (List Char × Bool)) (acc : Formula) (m : Model) :
    evaluate (l.foldl (fun a p => Formula.binary BinOp.and a (litFor p.1 p.2)) acc) m =
      (evaluate acc m && l.all (fun p => evaluate (litFor p.1 p.2) m)) := by
  induction l generalizing acc with
  | nil => simp
  | cons p l ih =>
    rw [List.foldl_cons, ih]
    show (evaluate (Formula.binary BinOp.and acc (litFor p.1 p.2)) m && _) = _
    simp [evaluate, Bool.and_assoc]

theorem evaluate_foldl_or_dlit (l : List (List Char × Bool)) (acc : Formula) (m : Model) :
    evaluate (l.foldl (fun a p => Formula.binary BinOp.or a (dlitFor p.1 p.2)) acc) m =
      (evaluate acc m || l.any (fun p => evaluate (dlitFor p.1 p.2) m)) := by
  induction l generalizing acc with
  | nil => simp
  | cons p l ih =>
    rw [List.foldl_cons, ih]
    show (evaluate (Formula.binary BinOp.or acc (dlitFor p.1 p.2)) m || _) = _
    simp [evaluate, Bool.or_assoc]

theorem list_all_congr {A : Type} (l : List A) (f g : A → Bool)
    (h : ∀ a ∈ l, f a = g a) : l.all f = l.all g := by
  induction l with
  | nil => rfl
  | cons a l ih =>
    simp only [List.all_cons, h a (List.mem_cons_self a l),
      ih (fun x hx => h x (List.mem_cons_of_mem a hx))]

theorem list_any_congr {A : Type} (l : List A) (f g : A → Bool)
    (h : ∀ a ∈ l, f a = g a) : l.any f = l.any g := by
  induction l with
  | nil => rfl
  | cons a l ih =>
    simp only [List.any_cons, h a (List.mem_cons_self a l),
      ih (fun x hx => h x (List.mem_cons_of_mem a hx))]

theorem evaluate_clauseT (m m' : Model) (hne : m ≠ []) :
    evaluate (clauseT m) m' = m.all (fun p => (mlookup m' p.1).getD false == p.2) := by
  cases m with
  | nil => exact absurd rfl hne
  | cons kb rest =>
    show evaluate (rest.foldl _ (litFor kb.1 kb.2)) m' = _
    rw [evaluate_foldl_and_lit, List.all_cons, evaluate_litFor]
    exact congrArg _ (list_all_congr rest _ _ (fun p _ => evaluate_litFor p.1 p.2 m'))

theorem evaluate_dclauseT (m m' : Model) (hne : m ≠ []) :
    evaluate (dclauseT m) m' = m.any (fun p => !((mlookup m' p.1).getD false == p.2)) := by
  cases m with
  | nil => exact absurd rfl hne
  | cons kb rest =>
    show evaluate (rest.foldl _ (dlitFor kb.1 kb.2)) m' = _
    rw [evaluate_foldl_or_dlit, List.any_cons, evaluate_dlitFor]
    exact congrArg _ (list_any_congr rest _ _ (fun p _ => evaluate_dlitFor p.1 p.2 m'))

/-! ## Association-list models with equal key lists -/

theorem mlookup_cons_ne (k v : List Char) (b : Bool) (m : Model) (h : k ≠ v) :
    mlookup ((k, b) :: m) v = mlookup m v := by
  simp [mlookup, h]

theorem mlookup_self_of_nodup :
    ∀ (m : Model), (m.map Prod.fst).Nodup → ∀ p ∈ m, mlookup m p.1 = some p.2
  | [], _, p, hp => by simp at hp
  | (k, b) :: rest, hnd, p, hp => by
    rcases List.mem_cons.1 hp with rfl | hmem
    · simp [mlookup]
    · have hk : k ≠ p.1 := by
        intro hcontra
        exact (List.nodup_cons.1 (by simpa using hnd)).1
          (hcontra ▸ List.mem_map_of_mem Prod.fst hmem)
      rw [mlookup_cons_ne _ _ _ _ hk]
      exact mlookup_self_of_nodup rest (by simpa using (List.nodup_cons.1 (by simpa using hnd)).2)
        p hmem

/-- Two models with the same duplicate-free key list are equal iff the second
assigns every key the first's value. -/
theorem model_all_eq_iff :
    ∀ (V : List (List Char)), V.Nodup → ∀ (m m' : Model),
      m.map Prod.fst = V → m'.map Prod.fst = V →
      ((m.all (fun p => (mlookup m' p.1).getD false == p.2)) = true ↔ m = m')
  | [], _, m, m', hm, hm' => by
    rw [List.map_eq_nil_iff] at hm hm'
    subst hm
    subst hm'
    simp
  | v :: U, hnd, m, m', hm, hm' => by
    cases m with
    | nil => simp at hm
    | cons kb mr =>
      cases m' with
      | nil => simp at hm'
      | cons kb' mr' =>
        obtain ⟨k, b⟩ := kb
        obtain ⟨k', b'⟩ := kb'
        simp only [List.map_cons, List.cons.injEq] at hm hm'
        obtain ⟨hk, hmr⟩ := hm
        obtain ⟨hk', hmr'⟩ := hm'
        rw [hk, hk']
        have hvnot : v ∉ U := (List.nodup_cons.1 hnd).1
        have hUnd : U.Nodup := (List.nodup_cons.1 hnd).2
        have hlook : ∀ p ∈ mr, mlookup ((v, b') :: mr') p.1 = mlookup mr' p.1 := by
          intro p hp
          refine mlookup_cons_ne _ _ _ _ ?_
          intro hcontra
          exact hvnot (hcontra ▸ (hmr ▸ List.mem_map_of_mem Prod.fst hp))
        rw [List.all_cons, Bool.and_eq_true]
        constructor
        · rintro ⟨hhead, htail⟩
          have hb : b' = b := by
            rw [show mlookup ((v, b') :: mr') v = some b' from by simp [mlookup]] at hhead
            simpa using hhead
          have htail' : (mr.all (fun p => (mlookup mr' p.1).getD false == p.2)) = true := by
            rw [List.all_eq_true] at htail ⊢
            intro p hp
            rw [← hlook p hp]
            exact htail p hp
          have := (model_all_eq_iff U hUnd mr mr' hmr hmr').1 htail'
          rw [hb, this]
        · intro heq
          obtain ⟨hb, hmm⟩ : b = b' ∧ mr = mr' := by
            have h1 := congrArg (fun l => List.head? l) heq
            have h2 := congrArg (fun l => List.tail l) heq
            simp at h1 h2
            exact ⟨h1, h2⟩
          subst hb
          subst hmm
          refine ⟨by simp [mlookup], ?_⟩
          rw [List.all_eq_true]
          intro p hp
          rw [hlook p hp, mlookup_self_of_nodup mr (hmr ▸ hUnd) p hp]
          simp

theorem list_any_not {A : Type} (l : List A) (f : A → Bool) :
    l.any (fun a => !(f a)) = !(l.all f) := by
  induction l with
  | nil => rfl
  | cons a l ih => simp [List.any_cons, List.all_cons, ih, Bool.not_and]

/-- A DNF clause built from `m` holds in `m'` exactly when `m' = m` (models
with the same duplicate-free key list). -/
theorem evaluate_clauseT_eq_decide (V : List (List Char)) (hne : V ≠ []) (hnd : V.Nodup)
    (m m' : Model) (hm : m.map Prod.fst = V) (hm' : m'.map Prod.fst = V) :
    evaluate (clauseT m) m' = decide (m = m') := by
  have hmne : m ≠ [] := by
    intro hcontra
    rw [hcontra] at hm
    exact hne hm.symm
  rw [evaluate_clauseT m m' hmne]
  by_cases h : m = m'
  · rw [(model_all_eq_iff V hnd m m' hm hm').2 h, decide_eq_true h]
  · cases hall : (m.all fun p => (mlookup m' p.1).getD false == p.2) with
    | true => exact absurd ((model_all_eq_iff V hnd m m' hm hm').1 hall) h
    | false => rw [decide_eq_false h]

/-- A CNF clause built from `m` fails in `m'` exactly when `m' = m`. -/
theorem evaluate_dclauseT_eq_decide (V : List (List Char)) (hne : V ≠ []) (hnd : V.Nodup)
    (m m' : Model) (hm : m.map Prod.fst = V) (hm' : m'.map Prod.fst = V) :
    evaluate (dclauseT m) m' = !(decide (m = m')) := by
  have hmne : m ≠ [] := by
    intro hcontra
    rw [hcontra] at hm
    exact hne hm.symm
  rw [evaluate_dclauseT m m' hmne, list_any_not]
  by_cases h : m = m'
  · rw [(model_all_eq_iff V hnd m m' hm hm').2 h, decide_eq_true h]
  · cases hall : (m.all fun p => (mlookup m' p.1).getD false == p.2) with
    | true => exact absurd ((model_all_eq_iff V hnd m m' hm hm').1 hall) h
    | false => rw [decide_eq_false h]

/-! ## `allModelsList` has no duplicate models -/

theorem counterModel_testBit_eq :
    ∀ (U : List (List Char)) (i j : Nat), counterModel U i = counterModel U j →
      ∀ k < U.length, Nat.testBit i k = Nat.testBit j k
  | [], _, _, _, k, hk => absurd hk (by simp)
  | u :: rest, i, j, heq, k, hk => by
    rw [counterModel_cons, counterModel_cons] at heq
    have hhead : Nat.testBit i rest.length = Nat.testBit j rest.length := by
      have := congrArg (fun l => List.head? l) heq
      simpa using this
    have htail : counterModel rest i = counterModel rest j := by
      have := congrArg (fun l => List.tail l) heq
      simpa using this
    rcases Nat.lt_succ_iff_lt_or_eq.1 hk with hlt | hkeq
    · exact counterModel_testBit_eq rest i j htail k hlt
    · rw [hkeq]; exact hhead

theorem counterModel_inj_on (U : List (List Char)) (i j : Nat)
    (hi : i < 2 ^ U.length) (hj : j < 2 ^ U.length)
    (heq : counterModel U i = counterModel U j) : i = j := by
  apply Nat.eq_of_testBit_eq
  intro k
  by_cases hk : k < U.length
  · exact counterModel_testBit_eq U i j heq k hk
  · have hle : U.length ≤ k := Nat.le_of_not_lt hk
    have hpow : 2 ^ U.length ≤ 2 ^ k := Nat.pow_le_pow_right (by norm_num) hle
    rw [Nat.testBit_eq_false_of_lt (Nat.lt_of_lt_of_le hi hpow),
      Nat.testBit_eq_false_of_lt (Nat.lt_of_lt_of_le hj hpow)]

theorem counterModels_nodup (U : List (List Char)) : (counterModels U).Nodup := by
  refine List.Nodup.map_on ?_ (List.nodup_range _)
  intro i hi j hj heq
  exact counterModel_inj_on U i j (List.mem_range.1 hi) (List.mem_range.1 hj) heq

theorem allModelsList_nodup (V : List (List Char)) (hne : V ≠ []) (hnd : V.Nodup) :
    (allModelsList V).Nodup := by
  rw [allModelsList_eq_counterModels V hne hnd]
  exact counterModels_nodup V

/-! ## The clauses selected by the synthesis loops -/

/-- The clauses `synthesize` collects: one DNF clause per true flag, walking
the truth values and the model list in step. -/
def selClauses : List Bool → List Model → List Formula
  | [], _ => []
  | _ :: _, [] => []
  | b :: bs, mm :: ms => if b then clauseT mm :: selClauses bs ms else selClauses bs ms

/-- The clauses `synthesize_cnf` collects: one CNF clause per false flag. -/
def selDClauses : List Bool → List Model → List Formula
  | [], _ => []
  | _ :: _, [] => []
  | b :: bs, mm :: ms => if b then selDClauses bs ms else dclauseT mm :: selDClauses bs ms

theorem mem_selClauses :
    ∀ (vals : List Bool) (ms : List Model) (C : Formula), C ∈ selClauses vals ms →
      ∃ m, m ∈ ms ∧ C = clauseT m
  | [], _, C, hC => by simp [selClauses] at hC
  | _ :: _, [], C, hC => by simp [selClauses] at hC
  | b :: bs, mm :: ms, C, hC => by
    by_cases hb : b = true
    · rw [hb] at hC
      simp only [selClauses, if_true] at hC
      rcases List.mem_cons.1 hC with rfl | hmem
      · exact ⟨mm, List.mem_cons_self mm ms, rfl⟩
      · obtain ⟨m, hm, rfl⟩ := mem_selClauses bs ms C hmem
        exact ⟨m, List.mem_cons_of_mem mm hm, rfl⟩
    · rw [Bool.not_eq_true] at hb
      rw [hb] at hC
      simp only [selClauses, Bool.false_eq_true, if_false] at hC
      obtain ⟨m, hm, rfl⟩ := mem_selClauses bs ms C hC
      exact ⟨m, List.mem_cons_of_mem mm hm, rfl⟩

theorem mem_selDClauses :
    ∀ (vals : List Bool) (ms : List Model) (C : Formula), C ∈ selDClauses vals ms →
      ∃ m, m ∈ ms ∧ C = dclauseT m
  | [], _, C, hC => by simp [selDClauses] at hC
  | _ :: _, [], C, hC => by simp [selDClauses] at hC
  | b :: bs, mm :: ms, C, hC => by
    by_cases hb : b = true
    · rw [hb] at hC
      simp only [selDClauses, if_true] at hC
      obtain ⟨m, hm, rfl⟩ := mem_selDClauses bs ms C hC
      exact ⟨m, List.mem_cons_of_mem mm hm, rfl⟩
    · rw [Bool.not_eq_true] at hb
      rw [hb] at hC
      simp only [selDClauses, Bool.false_eq_true, if_false] at hC
      rcases List.mem_cons.1 hC with rfl | hmem
      · exact ⟨mm, List.mem_cons_self mm ms, rfl⟩
      · obtain ⟨m, hm, rfl⟩ := mem_selDClauses bs ms C hmem
        exact ⟨m, List.mem_cons_of_mem mm hm, rfl⟩

theorem selClauses_of_all_false :
    ∀ (vals : List Bool) (ms : List Model), (∀ b ∈ vals, b = false) →
      selClauses vals ms = []
  | [], ms, _ => by cases ms <;> rfl
  | b :: bs, [], h => rfl
  | b :: bs, mm :: ms, h => by
    have hb : b = false := h b (List.mem_cons_self b bs)
    rw [show selClauses (b :: bs) (mm :: ms) =
        (if b = true then clauseT mm :: selClauses bs ms else selClauses bs ms) from rfl,
      hb]
    simp only [Bool.false_eq_true, if_false]
    exact selClauses_of_all_false bs ms (fun x hx => h x (List.mem_cons_of_mem b hx))

theorem all_false_of_selClauses_nil :
    ∀ (vals : List Bool) (ms : List Model), vals.length ≤ ms.length →
      selClauses vals ms = [] → ∀ b ∈ vals, b = false
  | [], _, _, _, b, hb => by simp at hb
  | b :: bs, [], hlen, _, _, _ => by simp at hlen
  | b :: bs, mm :: ms, hlen, hnil, x, hx => by
    have hb : b = false := by
      cases hbv : b with
      | false => rfl
      | true =>
        rw [show selClauses (b :: bs) (mm :: ms) =
            (if b = true then clauseT mm :: selClauses bs ms else selClauses bs ms) from rfl,
          hbv] at hnil
        simp at hnil
    rcases List.mem_cons.1 hx with rfl | hmem
    · exact hb
    · rw [show selClauses (b :: bs) (mm :: ms) =
          (if b = true then clauseT mm :: selClauses bs ms else selClauses bs ms) from rfl,
        hb] at hnil
      simp only [Bool.false_eq_true, if_false] at hnil
      exact all_false_of_selClauses_nil bs ms (by simpa using Nat.le_of_succ_le_succ hlen)
        hnil x hmem

theorem selDClauses_of_all_true :
    ∀ (vals : List Bool) (ms : List Model), (∀ b ∈ vals, b = true) →
      selDClauses vals ms = []
  | [], ms, _ => by cases ms <;> rfl
  | b :: bs, [], h => rfl
  | b :: bs, mm :: ms, h => by
    have hb : b = true := h b (List.mem_cons_self b bs)
    rw [show selDClauses (b :: bs) (mm :: ms) =
        (if b = true then selDClauses bs ms else dclauseT mm :: selDClauses bs ms) from rfl,
      hb]
    simp only [if_true]
    exact selDClauses_of_all_true bs ms (fun x hx => h x (List.mem_cons_of_mem b hx))

theorem all_true_of_selDClauses_nil :
    ∀ (vals : List Bool) (ms : List Model), vals.length ≤ ms.length →
      selDClauses vals ms = [] → ∀ b ∈ vals, b = true
  | [], _, _, _, b, hb => by simp at hb
  | b :: bs, [], hlen, _, _, _ => by simp at hlen
  | b :: bs, mm :: ms, hlen, hnil, x, hx => by
    have hb : b = true := by
      cases hbv : b with
      | true => rfl
      | false =>
        rw [show selDClauses (b :: bs) (mm :: ms) =
            (if b = true then selDClauses bs ms else dclauseT mm :: selDClauses bs ms) from rfl,
          hbv] at hnil
        simp at hnil
    rcases List.mem_cons.1 hx with rfl | hmem
    · exact hb
    · rw [show selDClauses (b :: bs) (mm :: ms) =
          (if b = true then selDClauses bs ms else dclauseT mm :: selDClauses bs ms) from rfl,
        hb] at hnil
      simp only [if_true] at hnil
      exact all_true_of_selDClauses_nil bs ms (by simpa using Nat.le_of_succ_le_succ hlen)
        hnil x hmem

/-- The index-based collection loop of `synthesize` computes `selClauses` on
the model suffix, raising no exception, as long as the indices stay in range
and every model is non-empty with valid keys. -/
theorem buildAnds_eq_sel (models : List Model) :
    ∀ (vals : List Bool) (k : Nat), k + vals.length ≤ models.length →
      (∀ m ∈ models, m ≠ [] ∧ m.all (fun p => is_variable p.1) = true) →
      buildAnds models vals k = some (selClauses vals (models.drop k))
  | [], k, _, _ => by
    cases hdrop : models.drop k <;> rfl
  | b :: bs, k, hlen, hmods => by
    have hlen' : k + (bs.length + 1) ≤ models.length := by simpa using hlen
    have hk : k < models.length := by omega
    have hdrop := List.drop_eq_getElem_cons hk
    have hget : models.get? k = some (models.get ⟨k, hk⟩) := List.get?_eq_get hk
    have hmem : models.get ⟨k, hk⟩ ∈ models := List.get_mem models k hk
    have hsfm : synthesize_for_model (models.get ⟨k, hk⟩) =
        some (clauseT (models.get ⟨k, hk⟩)) := by
      obtain ⟨hne, hval⟩ := hmods _ hmem
      cases hm : models.get ⟨k, hk⟩ with
      | nil => exact absurd hm hne
      | cons x xs =>
        rw [hm] at hval
        rw [show synthesize_for_model (x :: xs) =
            (if ((x :: xs).all fun p => is_variable p.1) = false then none
              else some (clauseT (x :: xs))) from rfl, hval]
        rfl
    have ih := buildAnds_eq_sel models bs (k + 1) (by omega) hmods
    cases hbv : b with
    | true =>
      rw [show buildAnds models (true :: bs) k =
          (match models.get? k with
          | none => none
          | some m =>
            match synthesize_for_model m with
            | none => none
            | some c => (buildAnds models bs (k + 1)).map (fun l => c :: l)) from rfl,
        hget]
      show (match synthesize_for_model (models.get ⟨k, hk⟩) with
          | none => none
          | some c => Option.map (fun l => c :: l) (buildAnds models bs (k + 1))) =
        some (selClauses (true :: bs) (List.drop k models))
      rw [hsfm]
      show Option.map (fun l => clauseT (models.get ⟨k, hk⟩) :: l)
          (buildAnds models bs (k + 1)) =
        some (selClauses (true :: bs) (List.drop k models))
      rw [ih, hdrop]
      rfl
    | false =>
      rw [show buildAnds models (false :: bs) k = buildAnds models bs (k + 1) from rfl,
        ih, hdrop]
      rfl

/-- The index-based collection loop of `synthesize_cnf` computes
`selDClauses` on the model suffix. -/
theorem buildClauses_eq_sel (models : List Model) :
    ∀ (vals : List Bool) (k : Nat), k + vals.length ≤ models.length →
      (∀ m ∈ models, m ≠ [] ∧ m.all (fun p => is_variable p.1) = true) →
      buildClauses models vals k = some (selDClauses vals (models.drop k))
  | [], k, _, _ => by
    cases hdrop : models.drop k <;> rfl
  | b :: bs, k, hlen, hmods => by
    have hlen' : k + (bs.length + 1) ≤ models.length := by simpa using hlen
    have hk : k < models.length := by omega
    have hdrop := List.drop_eq_getElem_cons hk
    have hget : models.get? k = some (models.get ⟨k, hk⟩) := List.get?_eq_get hk
    have hmem : models.get ⟨k, hk⟩ ∈ models := List.get_mem models k hk
    have hsfm : synthesize_for_all_except_model (models.get ⟨k, hk⟩) =
        some (dclauseT (models.get ⟨k, hk⟩)) := by
      obtain ⟨hne, hval⟩ := hmods _ hmem
      cases hm : models.get ⟨k, hk⟩ with
      | nil => exact absurd hm hne
      | cons x xs =>
        rw [hm] at hval
        rw [show synthesize_for_all_except_model (x :: xs) =
            (if ((x :: xs).all fun p => is_variable p.1) = false then none
              else some (dclauseT (x :: xs))) from rfl, hval]
        rfl
    have ih := buildClauses_eq_sel models bs (k + 1) (by omega) hmods
    cases hbv : b with
    | false =>
      rw [show buildClauses models (false :: bs) k =
          (match models.get? k with
          | none => none
          | some m =>
            match synthesize_for_all_except_model m with
            | none => none
            | some c => (buildClauses models bs (k + 1)).map (fun l => c :: l)) from rfl,
        hget]
      show (match synthesize_for_all_except_model (models.get ⟨k, hk⟩) with
          | none => none
          | some c => Option.map (fun l => c :: l) (buildClauses models bs (k + 1))) =
        some (selDClauses (false :: bs) (List.drop k models))
      rw [hsfm]
      show Option.map (fun l => dclauseT (models.get ⟨k, hk⟩) :: l)
          (buildClauses models bs (k + 1)) =
        some (selDClauses (false :: bs) (List.drop k models))
      rw [ih, hdrop]
      rfl
    | true =>
      rw [show buildClauses models (true :: bs) k = buildClauses models bs (k + 1) from rfl,
        ih, hdrop]
      rfl

/-! ## Evaluating the selected clauses over the enumerated models -/

theorem evaluate_foldl_or_f (l : List Formula) (a : Formula) (m : Model) :
    evaluate (l.foldl (fun acc c => Formula.binary BinOp.or acc c) a) m =
      (evaluate a m || l.any (fun C => evaluate C m)) := by
  induction l generalizing a with
  | nil => simp
  | cons c l ih =>
    rw [List.foldl_cons, ih]
    show (evaluate (Formula.binary BinOp.or a c) m || _) = _
    simp [evaluate, Bool.or_assoc]

theorem evaluate_foldl_and_f (l : List Formula) (a : Formula) (m : Model) :
    evaluate (l.foldl (fun acc c => Formula.binary BinOp.and acc c) a) m =
      (evaluate a m && l.all (fun C => evaluate C m)) := by
  induction l generalizing a with
  | nil => simp
  | cons c l ih =>
    rw [List.foldl_cons, ih]
    show (evaluate (Formula.binary BinOp.and a c) m && _) = _
    simp [evaluate, Bool.and_assoc]

/-- A DNF clause list built from models not containing `m₀` is false at
`m₀`. -/
theorem selClauses_any_not_mem (V : List (List Char)) (hne : V ≠ []) (hnd : V.Nodup)
    (vals : List Bool) (ms : List Model) (m₀ : Model)
    (hkeys : ∀ m ∈ ms, m.map Prod.fst = V) (hm₀ : m₀.map Prod.fst = V)
    (hnotmem : m₀ ∉ ms) :
    (selClauses vals ms).any (fun C => evaluate C m₀) = false := by
  rw [List.any_eq_false]
  intro C hC
  obtain ⟨m, hm, rfl⟩ := mem_selClauses vals ms C hC
  rw [evaluate_clauseT_eq_decide V hne hnd m m₀ (hkeys m hm) hm₀]
  intro hcontra
  exact hnotmem ((of_decide_eq_true hcontra : m = m₀) ▸ hm)

/-- A CNF clause list built from models not containing `m₀` is true at
`m₀`. -/
theorem selDClauses_all_not_mem (V : List (List Char)) (hne : V ≠ []) (hnd : V.Nodup)
    (vals : List Bool) (ms : List Model) (m₀ : Model)
    (hkeys : ∀ m ∈ ms, m.map Prod.fst = V) (hm₀ : m₀.map Prod.fst = V)
    (hnotmem : m₀ ∉ ms) :
    (selDClauses vals ms).all (fun C => evaluate C m₀) = true := by
  rw [List.all_eq_true]
  intro C hC
  obtain ⟨m, hm, rfl⟩ := mem_selDClauses vals ms C hC
  rw [evaluate_dclauseT_eq_decide V hne hnd m m₀ (hkeys m hm) hm₀]
  rw [decide_eq_false (fun (hcontra : m = m₀) => hnotmem (hcontra ▸ hm))]
  rfl

/-- Pointwise value of the DNF clause disjunction: at the `j`-th model it is
exactly the `j`-th truth value. -/
theorem selClauses_any_get (V : List (List Char)) (hne : V ≠ []) (hnd : V.Nodup) :
    ∀ (vals : List Bool) (ms : List Model), ms.Nodup →
      (∀ m ∈ ms, m.map Prod.fst = V) →
      ∀ (j : Nat) (hj : j < ms.length) (hj' : j < vals.length),
        (selClauses vals ms).any (fun C => evaluate C (ms.get ⟨j, hj⟩)) =
          vals.get ⟨j, hj'⟩
  | [], _, _, _, _, _, hj' => absurd hj' (by simp)
  | b :: bs, [], _, _, j, hj, _ => absurd hj (by simp)
  | b :: bs, mm :: ms, hndm, hkeys, j, hj, hj' => by
    have hmmkeys : mm.map Prod.fst = V := hkeys mm (List.mem_cons_self mm ms)
    have hmskeys : ∀ m ∈ ms, m.map Prod.fst = V :=
      fun m hm => hkeys m (List.mem_cons_of_mem mm hm)
    have hmmnot : mm ∉ ms := (List.nodup_cons.1 hndm).1
    have hndms : ms.Nodup := (List.nodup_cons.1 hndm).2
    cases j with
    | zero =>
      have hget : (mm :: ms).get ⟨0, hj⟩ = mm := rfl
      cases hbv : b with
      | true =>
        rw [show selClauses (true :: bs) (mm :: ms) =
            clauseT mm :: selClauses bs ms from rfl, hget, List.any_cons,
          evaluate_clauseT_eq_decide V hne hnd mm mm hmmkeys hmmkeys,
          decide_eq_true rfl]
        rfl
      | false =>
        rw [show selClauses (false :: bs) (mm :: ms) = selClauses bs ms from rfl, hget,
          selClauses_any_not_mem V hne hnd bs ms mm hmskeys hmmkeys hmmnot]
        rfl
    | succ j =>
      have hjms : j < ms.length := by simpa using hj
      have hjbs : j < bs.length := by simpa using hj'
      have hget : (mm :: ms).get ⟨j + 1, hj⟩ = ms.get ⟨j, hjms⟩ := rfl
      have hmem : ms.get ⟨j, hjms⟩ ∈ ms := List.get_mem ms j hjms
      have hmmne : mm ≠ ms.get ⟨j, hjms⟩ := fun hcontra => hmmnot (hcontra ▸ hmem)
      have ih := selClauses_any_get V hne hnd bs ms hndms hmskeys j hjms hjbs
      cases hbv : b with
      | true =>
        rw [show selClauses (true :: bs) (mm :: ms) =
            clauseT mm :: selClauses bs ms from rfl, hget, List.any_cons,
          evaluate_clauseT_eq_decide V hne hnd mm (ms.get ⟨j, hjms⟩) hmmkeys
            (hmskeys _ hmem), decide_eq_false hmmne, ih]
        rfl
      | false =>
        rw [show selClauses (false :: bs) (mm :: ms) = selClauses bs ms from rfl, hget, ih]
        rfl

/-- Pointwise value of the CNF clause conjunction: at the `j`-th model it is
exactly the `j`-th truth value. -/
theorem selDClauses_all_get (V : List (List Char)) (hne : V ≠ []) (hnd : V.Nodup) :
    ∀ (vals : List Bool) (ms : List Model), ms.Nodup →
      (∀ m ∈ ms, m.map Prod.fst = V) →
      ∀ (j : Nat) (hj : j < ms.length) (hj' : j < vals.length),
        (selDClauses vals ms).all (fun C => evaluate C (ms.get ⟨j, hj⟩)) =
          vals.get ⟨j, hj'⟩
  | [], _, _, _, _, _, hj' => absurd hj' (by simp)
  | b :: bs, [], _, _, j, hj, _ => absurd hj (by simp)
  | b :: bs, mm :: ms, hndm, hkeys, j, hj, hj' => by
    have hmmkeys : mm.map Prod.fst = V := hkeys mm (List.mem_cons_self mm ms)
    have hmskeys : ∀ m ∈ ms, m.map Prod.fst = V :=
      fun m hm => hkeys m (List.mem_cons_of_mem mm hm)
    have hmmnot : mm ∉ ms := (List.nodup_cons.1 hndm).1
    have hndms : ms.Nodup := (List.nodup_cons.1 hndm).2
    cases j with
    | zero =>
      have hget : (mm :: ms).get ⟨0, hj⟩ = mm := rfl
      cases hbv : b with
      | false =>
        rw [show selDClauses (false :: bs) (mm :: ms) =
            dclauseT mm :: selDClauses bs ms from rfl, hget, List.all_cons,
          evaluate_dclauseT_eq_decide V hne hnd mm mm hmmkeys hmmkeys,
          decide_eq_true rfl]
        rfl
      | true =>
        rw [show selDClauses (true :: bs) (mm :: ms) = selDClauses bs ms from rfl, hget,
          selDClauses_all_not_mem V hne hnd bs ms mm hmskeys hmmkeys hmmnot]
        rfl
    | succ j =>
      have hjms : j < ms.length := by simpa using hj
      have hjbs : j < bs.length := by simpa using hj'
      have hget : (mm :: ms).get ⟨j + 1, hj⟩ = ms.get ⟨j, hjms⟩ := rfl
      have hmem : ms.get ⟨j, hjms⟩ ∈ ms := List.get_mem ms j hjms
      have hmmne : mm ≠ ms.get ⟨j, hjms⟩ := fun hcontra => hmmnot (hcontra ▸ hmem)
      have ih := selDClauses_all_get V hne hnd bs ms hndms hmskeys j hjms hjbs
      cases hbv : b with
      | false =>
        rw [show selDClauses (false :: bs) (mm :: ms) =
            dclauseT mm :: selDClauses bs ms from rfl, hget, List.all_cons,
          evaluate_dclauseT_eq_decide V hne hnd mm (ms.get ⟨j, hjms⟩) hmmkeys
            (hmskeys _ hmem), decide_eq_false hmmne, ih]
        rfl
      | true =>
        rw [show selDClauses (true :: bs) (mm :: ms) = selDClauses bs ms from rfl, hget, ih]
        rfl

/-! ## Assembling the synthesis theorems -/

theorem evaluate_vclause_false (v : List Char) (m : Model) :
    evaluate (Formula.binary BinOp.and (Formula.var v) (Formula.unary (Formula.var v))) m =
      false := by
  show ((mlookup m v).getD false && !((mlookup m v).getD false)) = false
  cases (mlookup m v).getD false <;> rfl

theorem evaluate_dvclause_true (v : List Char) (m : Model) :
    evaluate (Formula.binary BinOp.or (Formula.var v) (Formula.unary (Formula.var v))) m =
      true := by
  show ((mlookup m v).getD false || !((mlookup m v).getD false)) = true
  cases (mlookup m v).getD false <;> rfl

theorem buildAnds_all_false (models : List Model) :
    ∀ (vals : List Bool) (k : Nat), (∀ b ∈ vals, b = false) →
      buildAnds models vals k = some []
  | [], _, _ => rfl
  | b :: bs, k, h => by
    have hb : b = false := h b (List.mem_cons_self b bs)
    rw [show buildAnds models (b :: bs) k =
        (if b then
          match models.get? k with
          | none => none
          | some m =>
            match synthesize_for_model m with
            | none => none
            | some c => (buildAnds models bs (k + 1)).map (fun l => c :: l)
        else buildAnds models bs (k + 1)) from rfl, hb]
    simp only [Bool.false_eq_true, if_false]
    exact buildAnds_all_false models bs (k + 1) (fun x hx => h x (List.mem_cons_of_mem b hx))

theorem model_all_valid_of_keys (V : List (List Char)) (m : Model)
    (hkeys : m.map Prod.fst = V) (hval : ∀ v ∈ V, is_variable v = true) :
    (m.all fun p => is_variable p.1) = true := by
  rw [List.all_eq_true]
  intro p hp
  exact hval p.1 (hkeys ▸ List.mem_map_of_mem Prod.fst hp)

theorem model_ne_nil_of_keys (V : List (List Char)) (m : Model) (hne : V ≠ [])
    (hkeys : m.map Prod.fst = V) : m ≠ [] := by
  intro hcontra
  rw [hcontra] at hkeys
  exact hne hkeys.symm

/-- `synthesize` with its asserts discharged. -/
theorem synthesize_unfold (V : List (List Char)) (values : List Bool)
    (hne : V.isEmpty = false) (hall : (V.all fun v => is_variable v) = true) :
    synthesize V values =
      match buildAnds (allModelsList V) values 0 with
      | none => none
      | some ands0 =>
        match (if ands0.isEmpty then
            V.map (fun v =>
              Formula.binary BinOp.and (Formula.var v) (Formula.unary (Formula.var v)))
          else ands0) with
        | [] => none
        | a :: rest => some (rest.foldl (fun acc c => Formula.binary BinOp.or acc c) a) := by
  rw [show synthesize V values =
      (if V.isEmpty then none
      else if (V.all fun v => is_variable v) = false then none
      else
        match buildAnds (allModelsList V) values 0 with
        | none => none
        | some ands0 =>
          match (if ands0.isEmpty then
              V.map (fun v =>
                Formula.binary BinOp.and (Formula.var v) (Formula.unary (Formula.var v)))
            else ands0) with
          | [] => none
          | a :: rest =>
            some (rest.foldl (fun acc c => Formula.binary BinOp.or acc c) a)) from rfl,
    hne, hall]
  simp only [Bool.false_eq_true, Bool.true_eq_false, if_false]

/-- `synthesize_cnf` with its asserts discharged. -/
theorem synthesize_cnf_unfold (V : List (List Char)) (values : List Bool)
    (hne : V.isEmpty = false) (hall : (V.all fun v => is_variable v) = true) :
    synthesize_cnf V values =
      match buildClauses (allModelsList V) values 0 with
      | none => none
      | some clauses0 =>
        match (if clauses0.isEmpty then
            V.map (fun v =>
              Formula.binary BinOp.or (Formula.var v) (Formula.unary (Formula.var v)))
          else clauses0) with
        | [] => none
        | c :: rest => some (rest.foldl (fun acc x => Formula.binary BinOp.and acc x) c) := by
  rw [show synthesize_cnf V values =
      (if V.isEmpty then none
      else if (V.all fun v => is_variable v) = false then none
      else
        match buildClauses (allModelsList V) values 0 with
        | none => none
        | some clauses0 =>
          match (if clauses0.isEmpty then
              V.map (fun v =>
                Formula.binary BinOp.or (Formula.var v) (Formula.unary (Formula.var v)))
            else clauses0) with
          | [] => none
          | c :: rest =>
            some (rest.foldl (fun acc x => Formula.binary BinOp.and acc x) c)) from rfl,
    hne, hall]
  simp only [Bool.false_eq_true, Bool.true_eq_false, if_false]

/-- The DNF direction: `synthesize` reproduces its truth table. -/
theorem synthesize_truth_table (V : List (List Char)) (values : List Bool)
    (hne : V ≠ []) (hnd : V.Nodup) (hval : ∀ v ∈ V, is_variable v = true)
    (hlen : values.length = 2 ^ V.length) :
    ∃ f, synthesize V values = some f ∧
      (allModelsList V).map (fun m => evaluate f m) = values := by
  have hVisEmpty : V.isEmpty = false := by
    cases V with
    | nil => exact absurd rfl hne
    | cons a l => rfl
  have hVall : (V.all fun v => is_variable v) = true := by
    rw [List.all_eq_true]
    exact hval
  have hkeys : ∀ m ∈ allModelsList V, m.map Prod.fst = V := allModelsList_keys V hnd
  have hmods : ∀ m ∈ allModelsList V, m ≠ [] ∧ (m.all fun p => is_variable p.1) = true :=
    fun m hm => ⟨model_ne_nil_of_keys V m hne (hkeys m hm),
      model_all_valid_of_keys V m (hkeys m hm) hval⟩
  have hmslen : (allModelsList V).length = 2 ^ V.length := allModelsList_length V hne hnd
  have hmsnd : (allModelsList V).Nodup := allModelsList_nodup V hne hnd
  have hbuild : buildAnds (allModelsList V) values 0 =
      some (selClauses values (allModelsList V)) := by
    have h := buildAnds_eq_sel (allModelsList V) values 0 (by rw [hmslen]; omega) hmods
    rwa [List.drop_zero] at h
  cases hsel : selClauses values (allModelsList V) with
  | nil =>
    have hallf : ∀ b ∈ values, b = false :=
      all_false_of_selClauses_nil values (allModelsList V) (by rw [hmslen]; omega) hsel
    obtain ⟨v0, Vr, hV⟩ := List.exists_cons_of_ne_nil hne
    have hmapv : V.map (fun v =>
        Formula.binary BinOp.and (Formula.var v) (Formula.unary (Formula.var v))) =
        Formula.binary BinOp.and (Formula.var v0) (Formula.unary (Formula.var v0)) ::
          Vr.map (fun v =>
            Formula.binary BinOp.and (Formula.var v) (Formula.unary (Formula.var v))) := by
      rw [hV]
      rfl
    refine ⟨(Vr.map (fun v =>
        Formula.binary BinOp.and (Formula.var v) (Formula.unary (Formula.var v)))).foldl
        (fun acc c => Formula.binary BinOp.or acc c)
        (Formula.binary BinOp.and (Formula.var v0) (Formula.unary (Formula.var v0))),
      ?_, ?_⟩
    · rw [synthesize_unfold V values hVisEmpty hVall, hbuild]
      show (match (if (selClauses values (allModelsList V)).isEmpty then
            V.map (fun v =>
              Formula.binary BinOp.and (Formula.var v) (Formula.unary (Formula.var v)))
          else selClauses values (allModelsList V)) with
        | [] => none
        | a :: rest =>
          some (rest.foldl (fun acc c => Formula.binary BinOp.or acc c) a)) = some _
      rw [hsel]
      simp only [List.isEmpty_nil, if_true]
      rw [hmapv]
    · apply List.ext_getElem
      · rw [List.length_map, hmslen, hlen]
      intro j h1 h2
      have hjm : j < (allModelsList V).length := by simpa using h1
      rw [List.getElem_map, evaluate_foldl_or_f, evaluate_vclause_false]
      have h4 : ((Vr.map (fun v =>
          Formula.binary BinOp.and (Formula.var v) (Formula.unary (Formula.var v)))).any
          (fun C => evaluate C ((allModelsList V).get ⟨j, hjm⟩))) = false := by
        rw [List.any_eq_false]
        intro C hC
        obtain ⟨v, hv, rfl⟩ := List.mem_map.1 hC
        rw [evaluate_vclause_false]
        simp
      have hj := hallf (values.get ⟨j, h2⟩) (List.get_mem values j h2)
      show (false || _) = values[j]
      rw [show (allModelsList V)[j] = (allModelsList V).get ⟨j, hjm⟩ from rfl, h4,
        show values[j] = values.get ⟨j, h2⟩ from rfl, hj]
      rfl
  | cons c rest =>
    refine ⟨rest.foldl (fun acc x => Formula.binary BinOp.or acc x) c, ?_, ?_⟩
    · rw [synthesize_unfold V values hVisEmpty hVall, hbuild]
      show (match (if (selClauses values (allModelsList V)).isEmpty then
            V.map (fun v =>
              Formula.binary BinOp.and (Formula.var v) (Formula.unary (Formula.var v)))
          else selClauses values (allModelsList V)) with
        | [] => none
        | a :: rest =>
          some (rest.foldl (fun acc c => Formula.binary BinOp.or acc c) a)) = some _
      rw [hsel]
      rfl
    · apply List.ext_getElem
      · rw [List.length_map, hmslen, hlen]
      intro j h1 h2
      have hjm : j < (allModelsList V).length := by simpa using h1
      rw [List.getElem_map, evaluate_foldl_or_f]
      have hstep : (evaluate c ((allModelsList V)[j]) ||
          rest.any fun C => evaluate C ((allModelsList V)[j])) =
          (selClauses values (allModelsList V)).any
            (fun C => evaluate C ((allModelsList V)[j])) := by
        rw [hsel, List.any_cons]
      rw [hstep, show (allModelsList V)[j] = (allModelsList V).get ⟨j, hjm⟩ from rfl,
        show values[j] = values.get ⟨j, h2⟩ from rfl]
      exact selClauses_any_get V hne hnd values (allModelsList V) hmsnd hkeys j hjm h2

/-- The CNF direction: `synthesize_cnf` reproduces its truth table. -/
theorem synthesize_cnf_truth_table (V : List (List Char)) (values : List Bool)
    (hne : V ≠ []) (hnd : V.Nodup) (hval : ∀ v ∈ V, is_variable v = true)
    (hlen : values.length = 2 ^ V.length) :
    ∃ g, synthesize_cnf V values = some g ∧
      (allModelsList V).map (fun m => evaluate g m) = values := by
  have hVisEmpty : V.isEmpty = false := by
    cases V with
    | nil => exact absurd rfl hne
    | cons a l => rfl
  have hVall : (V.all fun v => is_variable v) = true := by
    rw [List.all_eq_true]
    exact hval
  have hkeys : ∀ m ∈ allModelsList V, m.map Prod.fst = V := allModelsList_keys V hnd
  have hmods : ∀ m ∈ allModelsList V, m ≠ [] ∧ (m.all fun p => is_variable p.1) = true :=
    fun m hm => ⟨model_ne_nil_of_keys V m hne (hkeys m hm),
      model_all_valid_of_keys V m (hkeys m hm) hval⟩
  have hmslen : (allModelsList V).length = 2 ^ V.length := allModelsList_length V hne hnd
  have hmsnd : (allModelsList V).Nodup := allModelsList_nodup V hne hnd
  have hbuild : buildClauses (allModelsList V) values 0 =
      some (selDClauses values (allModelsList V)) := by
    have h := buildClauses_eq_sel (allModelsList V) values 0 (by rw [hmslen]; omega) hmods
    rwa [List.drop_zero] at h
  cases hsel : selDClauses values (allModelsList V) with
  | nil =>
    have hallt : ∀ b ∈ values, b = true :=
      all_true_of_selDClauses_nil values (allModelsList V) (by rw [hmslen]; omega) hsel
    obtain ⟨v0, Vr, hV⟩ := List.exists_cons_of_ne_nil hne
    have hmapv : V.map (fun v =>
        Formula.binary BinOp.or (Formula.var v) (Formula.unary (Formula.var v))) =
        Formula.binary BinOp.or (Formula.var v0) (Formula.unary (Formula.var v0)) ::
          Vr.map (fun v =>
            Formula.binary BinOp.or (Formula.var v) (Formula.unary (Formula.var v))) := by
      rw [hV]
      rfl
    refine ⟨(Vr.map (fun v =>
        Formula.binary BinOp.or (Formula.var v) (Formula.unary (Formula.var v)))).foldl
        (fun acc x => Formula.binary BinOp.and acc x)
        (Formula.binary BinOp.or (Formula.var v0) (Formula.unary (Formula.var v0))),
      ?_, ?_⟩
    · rw [synthesize_cnf_unfold V values hVisEmpty hVall, hbuild]
      show (match (if (selDClauses values (allModelsList V)).isEmpty then
            V.map (fun v =>
              Formula.binary BinOp.or (Formula.var v) (Formula.unary (Formula.var v)))
          else selDClauses values (allModelsList V)) with
        | [] => none
        | c :: rest =>
          some (rest.foldl (fun acc x => Formula.binary BinOp.and acc x) c)) = some _
      rw [hsel]
      simp only [List.isEmpty_nil, if_true]
      rw [hmapv]
    · apply List.ext_getElem
      · rw [List.length_map, hmslen, hlen]
      intro j h1 h2
      have hjm : j < (allModelsList V).length := by simpa using h1
      rw [List.getElem_map, evaluate_foldl_and_f, evaluate_dvclause_true]
      have h4 : ((Vr.map (fun v =>
          Formula.binary BinOp.or (Formula.var v) (Formula.unary (Formula.var v)))).all
          (fun C => evaluate C ((allModelsList V).get ⟨j, hjm⟩))) = true := by
        rw [List.all_eq_true]
        intro C hC
        obtain ⟨v, hv, rfl⟩ := List.mem_map.1 hC
        rw [evaluate_dvclause_true]
      have hj := hallt (values.get ⟨j, h2⟩) (List.get_mem values j h2)
      show (true && _) = values[j]
      rw [show (allModelsList V)[j] = (allModelsList V).get ⟨j, hjm⟩ from rfl, h4,
        show values[j] = values.get ⟨j, h2⟩ from rfl, hj]
      rfl
  | cons c rest =>
    refine ⟨rest.foldl (fun acc x => Formula.binary BinOp.and acc x) c, ?_, ?_⟩
    · rw [synthesize_cnf_unfold V values hVisEmpty hVall, hbuild]
      show (match (if (selDClauses values (allModelsList V)).isEmpty then
            V.map (fun v =>
              Formula.binary BinOp.or (Formula.var v) (Formula.unary (Formula.var v)))
          else selDClauses values (allModelsList V)) with
        | [] => none
        | c :: rest =>
          some (rest.foldl (fun acc x => Formula.binary BinOp.and acc x) c)) = some _
      rw [hsel]
      rfl
    · apply List.ext_getElem
      · rw [List.length_map, hmslen, hlen]
      intro j h1 h2
      have hjm : j < (allModelsList V).length := by simpa using h1
      rw [List.getElem_map, evaluate_foldl_and_f]
      have hstep : (evaluate c ((allModelsList V)[j]) &&
          rest.all fun C => evaluate C ((allModelsList V)[j])) =
          (selDClauses values (allModelsList V)).all
            (fun C => evaluate C ((allModelsList V)[j])) := by
        rw [hsel, List.all_cons]
      rw [hstep, show (allModelsList V)[j] = (allModelsList V).get ⟨j, hjm⟩ from rfl,
        show values[j] = values.get ⟨j, h2⟩ from rfl]
      exact selDClauses_all_get V hne hnd values (allModelsList V) hmsnd hkeys j hjm h2

/-! ## Claim C1 -/

/-- C1 (amended: the variable names must be pairwise distinct — with a
duplicated name the claim fails, see the counterexample): for a non-empty
list `V` of distinct valid variable names and truth values of length
`2 ^ |V|`, evaluating `synthesize(V, values)` in each model of
`all_models(V)`, in order, yields exactly `values`, and likewise for
`synthesize_cnf(V, values)`. -/
theorem C1_synthesize_reproduces_values (V : List (List Char)) (values : List Bool)
    (hne : V ≠ []) (hnd : V.Nodup) (hval : ∀ v ∈ V, is_variable v = true)
    (hlen : values.length = 2 ^ V.length) :
    ∃ ms f g, all_models V = some (PyRes.val ms) ∧
      synthesize V values = some f ∧ synthesize_cnf V values = some g ∧
      ms.map (fun m => evaluate f m) = values ∧
      ms.map (fun m => evaluate g m) = values := by
  obtain ⟨f, hf, hfm⟩ := synthesize_truth_table V values hne hnd hval hlen
  obtain ⟨g, hg, hgm⟩ := synthesize_cnf_truth_table V values hne hnd hval hlen
  exact ⟨allModelsList V, f, g, all_models_eq_val V hne hval, hf, hg, hfm, hgm⟩

/-- Witness for C1 at the spec's concrete scenario
`synthesize(['p','q'], [T,T,T,F])`. -/
theorem C1_synthesize_reproduces_values_witness :
    ∃ ms f g, all_models [['p'], ['q']] = some (PyRes.val ms) ∧
      synthesize [['p'], ['q']] [true, true, true, false] = some f ∧
      synthesize_cnf [['p'], ['q']] [true, true, true, false] = some g ∧
      ms.map (fun m => evaluate f m) = [true, true, true, false] ∧
      ms.map (fun m => evaluate g m) = [true, true, true, false] :=
  C1_synthesize_reproduces_values [['p'], ['q']] [true, true, true, false]
    (by decide) (by decide) (by decide) (by decide)

/-- Counterexample to C1 as stated: with the duplicated (hence not distinct)
variable list `['p', 'p']` and the length-4 truth table `[T,F,F,F]`,
re-evaluating the synthesized formula over `all_models(['p','p'])` yields
`[T,F,T,F]`, not the requested `values`. -/
theorem C1_counterexample :
    all_models [['p'], ['p']] = some (PyRes.val
      [[(['p'], false)], [(['p'], true)], [(['p'], false)], [(['p'], true)]]) ∧
    (synthesize [['p'], ['p']] [true, false, false, false]).map (fun f =>
        [[(['p'], false)], [(['p'], true)], [(['p'], false)],
          [(['p'], true)]].map (fun m => evaluate f m)) =
      some [true, false, true, false] ∧
    [true, false, true, false] ≠ [true, false, false, false] := by
  decide

/-! ## Claim C6 -/

theorem mem_variablesList_foldl_or (l : List Formula) (a : Formula) (x : List Char) :
    x ∈ variablesList (l.foldl (fun acc c => Formula.binary BinOp.or acc c) a) ↔
      x ∈ variablesList a ∨ ∃ c ∈ l, x ∈ variablesList c := by
  induction l generalizing a with
  | nil => simp
  | cons c l ih =>
    rw [List.foldl_cons, ih, mem_variablesList_binary]
    constructor
    · rintro (⟨h | h⟩ | ⟨d, hd, hx⟩)
      · exact Or.inl h
      · exact Or.inr ⟨c, List.mem_cons_self c l, h⟩
      · exact Or.inr ⟨d, List.mem_cons_of_mem c hd, hx⟩
    · rintro (h | ⟨d, hd, hx⟩)
      · exact Or.inl (Or.inl h)
      · rcases List.mem_cons.1 hd with rfl | hdl
        · exact Or.inl (Or.inr hx)
        · exact Or.inr ⟨d, hdl, hx⟩

theorem mem_variablesList_vclause (v x : List Char) :
    x ∈ variablesList
        (Formula.binary BinOp.and (Formula.var v) (Formula.unary (Formula.var v))) ↔
      x = v := by
  rw [mem_variablesList_binary]
  simp [variablesList]

/-- C6 (amended: the per-variable contradictory clauses are DISJOINED
left-to-right, with `|`, not conjoined — see the counterexample): for a
non-empty variable list `V` of valid names, when every entry of `values` is
false, `synthesize` returns the left-to-right disjunction over `v ∈ V`, in
list order, of the clause `v & ~v`; the result is false in every model
(unsatisfiable) and its variable set is exactly the set of names in `V`. -/
theorem C6_synthesize_all_false (V : List (List Char)) (values : List Bool)
    (v0 : List Char) (Vr : List (List Char)) (hV : V = v0 :: Vr)
    (hval : ∀ v ∈ V, is_variable v = true)
    (hfalse : ∀ b ∈ values, b = false) :
    ∃ f, synthesize V values = some f ∧
      f = (Vr.map (fun v =>
          Formula.binary BinOp.and (Formula.var v) (Formula.unary (Formula.var v)))).foldl
          (fun acc c => Formula.binary BinOp.or acc c)
          (Formula.binary BinOp.and (Formula.var v0) (Formula.unary (Formula.var v0))) ∧
      (∀ m : Model, evaluate f m = false) ∧
      (∀ x, x ∈ variablesList f ↔ x ∈ V) := by
  have hne : V ≠ [] := by rw [hV]; simp
  have hVisEmpty : V.isEmpty = false := by
    cases V with
    | nil => exact absurd rfl hne
    | cons a l => rfl
  have hVall : (V.all fun v => is_variable v) = true := by
    rw [List.all_eq_true]
    exact hval
  have hba : buildAnds (allModelsList V) values 0 = some [] :=
    buildAnds_all_false (allModelsList V) values 0 hfalse
  have hmapv : V.map (fun v =>
      Formula.binary BinOp.and (Formula.var v) (Formula.unary (Formula.var v))) =
      Formula.binary BinOp.and (Formula.var v0) (Formula.unary (Formula.var v0)) ::
        Vr.map (fun v =>
          Formula.binary BinOp.and (Formula.var v) (Formula.unary (Formula.var v))) := by
    rw [hV]
    rfl
  refine ⟨_, ?_, rfl, ?_, ?_⟩
  · rw [synthesize_unfold V values hVisEmpty hVall, hba]
    show (match (if ([] : List Formula).isEmpty then
          V.map (fun v =>
            Formula.binary BinOp.and (Formula.var v) (Formula.unary (Formula.var v)))
        else []) with
      | [] => none
      | a :: rest =>
        some (rest.foldl (fun acc c => Formula.binary BinOp.or acc c) a)) = some _
    simp only [List.isEmpty_nil, if_true]
    rw [hmapv]
  · intro m
    rw [evaluate_foldl_or_f, evaluate_vclause_false]
    have h4 : ((Vr.map (fun v =>
        Formula.binary BinOp.and (Formula.var v) (Formula.unary (Formula.var v)))).any
        (fun C => evaluate C m)) = false := by
      rw [List.any_eq_false]
      intro C hC
      obtain ⟨v, hv, rfl⟩ := List.mem_map.1 hC
      rw [evaluate_vclause_false]
      simp
    rw [h4]
    rfl
  · intro x
    rw [mem_variablesList_foldl_or, mem_variablesList_vclause, hV]
    constructor
    · rintro (rfl | ⟨c, hc, hx⟩)
      · exact List.mem_cons_self _ _
      · obtain ⟨v, hv, rfl⟩ := List.mem_map.1 hc
        rw [mem_variablesList_vclause] at hx
        exact List.mem_cons_of_mem v0 (hx ▸ hv)
    · intro hx
      rcases List.mem_cons.1 hx with rfl | hxv
      · exact Or.inl rfl
      · refine Or.inr ⟨Formula.binary BinOp.and (Formula.var x)
          (Formula.unary (Formula.var x)), List.mem_map_of_mem _ hxv, ?_⟩
        rw [mem_variablesList_vclause]

/-- Witness for C6 at `synthesize(['p','q'], [F,F,F,F])`. -/
theorem C6_synthesize_all_false_witness :
    ∃ f, synthesize [['p'], ['q']] [false, false, false, false] = some f ∧
      f = ([['q']].map (fun v =>
          Formula.binary BinOp.and (Formula.var v) (Formula.unary (Formula.var v)))).foldl
          (fun acc c => Formula.binary BinOp.or acc c)
          (Formula.binary BinOp.and (Formula.var ['p']) (Formula.unary (Formula.var ['p']))) ∧
      (∀ m : Model, evaluate f m = false) ∧
      (∀ x, x ∈ variablesList f ↔ x ∈ [['p'], ['q']]) :=
  C6_synthesize_all_false [['p'], ['q']] [false, false, false, false] ['p'] [['q']]
    rfl (by decide) (by decide)

/-- Counterexample to C6 as stated: on the all-false table over
`['p', 'q']` the code returns `((p&~p)|(q&~q))` — the contradictory clauses
are joined with `|`, not with `&` as the claim (and spec §4.7) states. -/
theorem C6_counterexample :
    synthesize [['p'], ['q']] [false, false, false, false] =
      some (Formula.binary BinOp.or
        (Formula.binary BinOp.and (Formula.var ['p']) (Formula.unary (Formula.var ['p'])))
        (Formula.binary BinOp.and (Formula.var ['q'])
          (Formula.unary (Formula.var ['q'])))) ∧
    synthesize [['p'], ['q']] [false, false, false, false] ≠
      some (Formula.binary BinOp.and
        (Formula.binary BinOp.and (Formula.var ['p']) (Formula.unary (Formula.var ['p'])))
        (Formula.binary BinOp.and (Formula.var ['q'])
          (Formula.unary (Formula.var ['q'])))) := by
  decide

/-! ## Scanner facts -/

/-- Net parenthesis balance of a string. -/
def balInt : List Char → Int
  | [] => 0
  | c :: cs => (if c = '(' then 1 else if c = ')' then -1 else 0) + balInt cs

theorem balInt_cons (c : Char) (l : List Char) :
    balInt (c :: l) = (if c = '(' then 1 else if c = ')' then -1 else 0) + balInt l := rfl

theorem balInt_append (a b : List Char) : balInt (a ++ b) = balInt a + balInt b := by
  induction a with
  | nil => simp [balInt]
  | cons c cs ih =>
    rw [List.cons_append, balInt_cons, balInt_cons, ih]
    ring

theorem balInt_no_paren (l : List Char) (h : ∀ x ∈ l, x ≠ '(' ∧ x ≠ ')') :
    balInt l = 0 := by
  induction l with
  | nil => rfl
  | cons c cs ih =>
    have hc := h c (List.mem_cons_self c cs)
    rw [balInt_cons, ih (fun x hx => h x (List.mem_cons_of_mem c hx)),
      if_neg hc.1, if_neg hc.2]
    ring

theorem balInt_singleton_eq_neg_one (c : Char) (h : balInt [c] = -1) : c = ')' := by
  by_cases h1 : c = ')'
  · exact h1
  · by_cases h2 : c = '('
    · rw [h2] at h
      simp [balInt] at h
    · rw [balInt_no_paren [c] (by intro x hx; simp at hx; subst hx; exact ⟨h2, h1⟩)] at h
      simp at h

/-- One-step unfolding of `parse_str` on a non-empty string. -/
theorem parse_str_cons (c : Char) (cs : List Char) :
    parse_str (c :: cs) =
      (if is_variable [c] then
        (c :: cs.takeWhile (fun d => d.isDigit), cs.dropWhile (fun d => d.isDigit))
      else if c = '-' && cs.head? = some '>' then (['-', '>'], cs.tail)
      else if c = '(' then
        (if (paren_scan (c :: cs) 0 0).2 ≠ 0 then ([c], cs)
        else ((c :: cs).take (paren_scan (c :: cs) 0 0).1,
          (c :: cs).drop (paren_scan (c :: cs) 0 0).1))
      else ([c], cs)) := rfl

/-- One-step unfolding of `paren_scan`. -/
theorem paren_scan_cons (e : Char) (es : List Char) (counter : Int) (ind : Nat) :
    paren_scan (e :: es) counter ind =
      (if e = '(' then paren_scan es (counter + 1) (ind + 1)
      else if e = ')' then paren_scan es (counter - 1) (ind + 1)
      else if counter = 0 then (ind, counter)
      else paren_scan es counter (ind + 1)) := rfl

/-- The scan's returned index never decreases below the start index. -/
theorem paren_scan_ind_le : ∀ (cs : List Char) (c : Int) (i : Nat),
    i ≤ (paren_scan cs c i).1
  | [], _, _ => le_refl _
  | e :: es, c, i => by
    rw [paren_scan_cons]
    by_cases h1 : e = '('
    · rw [if_pos h1]
      exact le_trans (Nat.le_succ i) (paren_scan_ind_le es (c + 1) (i + 1))
    · rw [if_neg h1]
      by_cases h2 : e = ')'
      · rw [if_pos h2]
        exact le_trans (Nat.le_succ i) (paren_scan_ind_le es (c - 1) (i + 1))
      · rw [if_neg h2]
        by_cases h3 : c = 0
        · rw [if_pos h3]
        · rw [if_neg h3]
          exact le_trans (Nat.le_succ i) (paren_scan_ind_le es c (i + 1))

theorem parse_str_split (s : List Char) (hs : s ≠ []) :
    (parse_str s).1 ++ (parse_str s).2 = s := by
  cases s with
  | nil => exact absurd rfl hs
  | cons c cs =>
    rw [parse_str_cons]
    by_cases h1 : is_variable [c] = true
    · rw [if_pos h1]
      simp [List.takeWhile_append_dropWhile]
    · rw [if_neg h1]
      by_cases h2 : (c = '-' && cs.head? = some '>') = true
      · rw [if_pos h2]
        simp only [Bool.and_eq_true, decide_eq_true_eq] at h2
        obtain ⟨rfl, hh⟩ := h2
        cases cs with
        | nil => simp at hh
        | cons d ds =>
          simp only [List.head?_cons, Option.some.injEq] at hh
          subst hh
          rfl
      · rw [if_neg h2]
        by_cases h3 : c = '('
        · rw [if_pos h3]
          by_cases h4 : (paren_scan (c :: cs) 0 0).2 ≠ 0
          · rw [if_pos h4]
            rfl
          · rw [if_neg h4]
            simp [List.take_append_drop]
        · rw [if_neg h3]
          rfl

theorem parse_str_tok_ne_nil (s : List Char) (hs : s ≠ []) : (parse_str s).1 ≠ [] := by
  cases s with
  | nil => exact absurd rfl hs
  | cons c cs =>
    rw [parse_str_cons]
    by_cases h1 : is_variable [c] = true
    · rw [if_pos h1]
      simp
    · rw [if_neg h1]
      by_cases h2 : (c = '-' && cs.head? = some '>') = true
      · rw [if_pos h2]
        simp
      · rw [if_neg h2]
        by_cases h3 : c = '('
        · rw [if_pos h3]
          by_cases h4 : (paren_scan (c :: cs) 0 0).2 ≠ 0
          · rw [if_pos h4]
            simp
          · rw [if_neg h4]
            -- the scan never breaks at index 0: the first character is '('
            subst h3
            show ¬(('(' :: cs).take (paren_scan ('(' :: cs) 0 0).1 = [])
            rw [show paren_scan ('(' :: cs) 0 0 = paren_scan cs 1 1 from rfl]
            have hpos : 1 ≤ (paren_scan cs 1 1).1 := paren_scan_ind_le cs 1 1
            intro hcontra
            rw [List.take_eq_nil_iff] at hcontra
            rcases hcontra with h | h
            · omega
            · simp at h
        · rw [if_neg h3]
          simp

/-- Specification of the scan: it consumes some prefix of `cs`, and the
returned counter is the start counter plus the balance of that prefix. -/
theorem paren_scan_spec : ∀ (cs : List Char) (c : Int) (i : Nat),
    ∃ k ≤ cs.length, paren_scan cs c i = (i + k, c + balInt (cs.take k))
  | [], c, i => ⟨0, by simp, by simp [paren_scan, balInt]⟩
  | e :: es, c, i => by
    rw [paren_scan_cons]
    by_cases h1 : e = '('
    · rw [if_pos h1]
      obtain ⟨k, hk, heq⟩ := paren_scan_spec es (c + 1) (i + 1)
      refine ⟨k + 1, by simpa using hk, ?_⟩
      rw [heq, List.take_succ_cons, balInt_cons, if_pos h1, Prod.mk.injEq]
      exact ⟨by omega, by ring⟩
    · rw [if_neg h1]
      by_cases h2 : e = ')'
      · rw [if_pos h2]
        obtain ⟨k, hk, heq⟩ := paren_scan_spec es (c - 1) (i + 1)
        refine ⟨k + 1, by simpa using hk, ?_⟩
        rw [heq, List.take_succ_cons, balInt_cons, if_neg h1, if_pos h2, Prod.mk.injEq]
        exact ⟨by omega, by ring⟩
      · rw [if_neg h2]
        by_cases h3 : c = 0
        · rw [if_pos h3]
          exact ⟨0, by simp, by simp [balInt]⟩
        · rw [if_neg h3]
          obtain ⟨k, hk, heq⟩ := paren_scan_spec es c (i + 1)
          refine ⟨k + 1, by simpa using hk, ?_⟩
          rw [heq, List.take_succ_cons, balInt_cons, if_neg h1, if_neg h2, Prod.mk.injEq]
          exact ⟨by omega, by ring⟩

/-- A `(`-headed token other than the bare `(` has zero net balance. -/
theorem parse_str_paren_bal (s : List Char) (hs : s ≠ [])
    (hhead : (parse_str s).1.head? = some '(') (hne : (parse_str s).1 ≠ ['(']) :
    balInt (parse_str s).1 = 0 := by
  cases s with
  | nil => exact absurd rfl hs
  | cons c cs =>
    rw [parse_str_cons] at hhead hne ⊢
    by_cases h1 : is_variable [c] = true
    · rw [if_pos h1] at hhead
      simp only [List.head?_cons, Option.some.injEq] at hhead
      subst hhead
      exact absurd h1 (by decide)
    · rw [if_neg h1] at hhead hne ⊢
      by_cases h2 : (c = '-' && cs.head? = some '>') = true
      · rw [if_pos h2] at hhead
        simp at hhead
      · rw [if_neg h2] at hhead hne ⊢
        by_cases h3 : c = '('
        · rw [if_pos h3] at hhead hne ⊢
          by_cases h4 : (paren_scan (c :: cs) 0 0).2 ≠ 0
          · rw [if_pos h4] at hne
            subst h3
            exact absurd rfl hne
          · rw [if_neg h4] at hne ⊢
            push_neg at h4
            obtain ⟨k, hk, heq⟩ := paren_scan_spec (c :: cs) 0 0
            have hbal : balInt ((c :: cs).take k) = 0 := by
              rw [heq] at h4
              simpa using h4
            show balInt ((c :: cs).take (paren_scan (c :: cs) 0 0).1) = 0
            rw [heq]
            simpa using hbal
        · rw [if_neg h3] at hhead
          simp only [List.head?_cons, Option.some.injEq] at hhead
          exact absurd hhead h3

/-! ## Strings the scan passes through without breaking -/

/-- `scanSafe c cs`: starting from counter `c`, the scan walks all of `cs`
without triggering the break (the counter is never zero at a non-parenthesis
character). -/
def scanSafe : Int → List Char → Prop
  | _, [] => True
  | c, x :: xs =>
    if x = '(' then scanSafe (c + 1) xs
    else if x = ')' then scanSafe (c - 1) xs
    else c ≠ 0 ∧ scanSafe c xs

theorem paren_scan_through : ∀ (cs : List Char) (t : List Char) (c : Int) (i : Nat),
    scanSafe c cs → paren_scan (cs ++ t) c i = paren_scan t (c + balInt cs) (i + cs.length)
  | [], t, c, i, _ => by simp [balInt]
  | x :: xs, t, c, i, hsafe => by
    rw [List.cons_append, paren_scan_cons, balInt_cons]
    by_cases h1 : x = '('
    · rw [if_pos h1]
      have hsafe' : scanSafe (c + 1) xs := by
        rw [show scanSafe c (x :: xs) =
          (if x = '(' then scanSafe (c + 1) xs
          else if x = ')' then scanSafe (c - 1) xs
          else c ≠ 0 ∧ scanSafe c xs) from rfl, if_pos h1] at hsafe
        exact hsafe
      rw [paren_scan_through xs t (c + 1) (i + 1) hsafe', if_pos h1]
      rw [show c + (1 + balInt xs) = c + 1 + balInt xs from by ring,
        show i + (x :: xs).length = i + 1 + xs.length from by simp [List.length_cons]; omega]
    · rw [if_neg h1]
      by_cases h2 : x = ')'
      · rw [if_pos h2]
        have hsafe' : scanSafe (c - 1) xs := by
          rw [show scanSafe c (x :: xs) =
            (if x = '(' then scanSafe (c + 1) xs
            else if x = ')' then scanSafe (c - 1) xs
            else c ≠ 0 ∧ scanSafe c xs) from rfl, if_neg h1, if_pos h2] at hsafe
          exact hsafe
        rw [paren_scan_through xs t (c - 1) (i + 1) hsafe', if_pos h2, if_neg h1]
        rw [show c + (-1 + balInt xs) = c - 1 + balInt xs from by ring,
          show i + (x :: xs).length = i + 1 + xs.length from by simp [List.length_cons]; omega]
      · rw [if_neg h2]
        have hsafe' : c ≠ 0 ∧ scanSafe c xs := by
          rw [show scanSafe c (x :: xs) =
            (if x = '(' then scanSafe (c + 1) xs
            else if x = ')' then scanSafe (c - 1) xs
            else c ≠ 0 ∧ scanSafe c xs) from rfl, if_neg h1, if_neg h2] at hsafe
          exact hsafe
        rw [if_neg hsafe'.1, paren_scan_through xs t c (i + 1) hsafe'.2, if_neg h1,
          if_neg h2]
        rw [show c + (0 + balInt xs) = c + balInt xs from by ring,
          show i + (x :: xs).length = i + 1 + xs.length from by simp [List.length_cons]; omega]

theorem scanSafe_cons_eq (c : Int) (x : Char) (xs : List Char) :
    scanSafe c (x :: xs) =
      (if x = '(' then scanSafe (c + 1) xs
      else if x = ')' then scanSafe (c - 1) xs
      else c ≠ 0 ∧ scanSafe c xs) := rfl

theorem scanSafe_append : ∀ (a b : List Char) (c : Int),
    scanSafe c a → scanSafe (c + balInt a) b → scanSafe c (a ++ b)
  | [], b, c, _, hb => by simpa [balInt] using hb
  | x :: xs, b, c, ha, hb => by
    rw [List.cons_append, scanSafe_cons_eq]
    rw [scanSafe_cons_eq] at ha
    rw [balInt_cons] at hb
    by_cases h1 : x = '('
    · rw [if_pos h1]
      rw [if_pos h1] at ha
      refine scanSafe_append xs b (c + 1) ha ?_
      rw [show c + 1 + balInt xs = c + (1 + balInt xs) from by ring]
      rw [if_pos h1] at hb
      exact hb
    · rw [if_neg h1]
      rw [if_neg h1] at ha hb
      by_cases h2 : x = ')'
      · rw [if_pos h2]
        rw [if_pos h2] at ha hb
        refine scanSafe_append xs b (c - 1) ha ?_
        rw [show c - 1 + balInt xs = c + (-1 + balInt xs) from by ring]
        exact hb
      · rw [if_neg h2]
        rw [if_neg h2] at ha hb
        refine ⟨ha.1, scanSafe_append xs b c ha.2 ?_⟩
        rw [show c + balInt xs = c + (0 + balInt xs) from by ring]
        exact hb

theorem scanSafe_no_paren (l : List Char) (c : Int) (hc : c ≠ 0)
    (h : ∀ x ∈ l, x ≠ '(' ∧ x ≠ ')') : scanSafe c l := by
  induction l with
  | nil => trivial
  | cons x xs ih =>
    have hx := h x (List.mem_cons_self x xs)
    rw [scanSafe_cons_eq, if_neg hx.1, if_neg hx.2]
    exact ⟨hc, ih (fun y hy => h y (List.mem_cons_of_mem x hy))⟩

/-! ## The canonical rendering is scanner-safe and balanced -/

theorem is_variable_no_paren (name : List Char) (h : is_variable name = true) :
    ∀ x ∈ name, x ≠ '(' ∧ x ≠ ')' := by
  cases name with
  | nil => simp [is_variable] at h
  | cons c cs =>
    simp only [is_variable, Bool.and_eq_true, Bool.or_eq_true, decide_eq_true_eq] at h
    intro x hx
    rcases List.mem_cons.1 hx with rfl | hmem
    · constructor
      · intro hcontra
        subst hcontra
        exact absurd h.1.1 (by decide)
      · intro hcontra
        subst hcontra
        exact absurd h.1.1 (by decide)
    · have hdig : x.isDigit = true := by
        rcases h.2 with hnil | hall
        · rw [List.isEmpty_iff] at hnil
          subst hnil
          simp at hmem
        · exact (List.all_eq_true.1 hall) x hmem
      constructor
      · intro hcontra
        subst hcontra
        exact absurd hdig (by decide)
      · intro hcontra
        subst hcontra
        exact absurd hdig (by decide)

theorem opChars_no_paren (op : BinOp) : ∀ x ∈ opChars op, x ≠ '(' ∧ x ≠ ')' := by
  cases op <;> intro x hx <;> simp [opChars] at hx
  · subst hx; exact ⟨by decide, by decide⟩
  · subst hx; exact ⟨by decide, by decide⟩
  · rcases hx with rfl | rfl
    · exact ⟨by decide, by decide⟩
    · exact ⟨by decide, by decide⟩

theorem balInt_opChars (op : BinOp) : balInt (opChars op) = 0 :=
  balInt_no_paren _ (opChars_no_paren op)

theorem WF_unary (f : Formula) (h : WF (Formula.unary f)) : WF f := h

theorem WF_binary (op : BinOp) (f g : Formula) (h : WF (Formula.binary op f g)) :
    WF f ∧ WF g := by
  have hb : (WFb f && WFb g) = true := h
  rw [Bool.and_eq_true] at hb
  exact hb

theorem WF_binary_intro (op : BinOp) (f g : Formula) (hf : WF f) (hg : WF g) :
    WF (Formula.binary op f g) := by
  show (WFb f && WFb g) = true
  rw [hf, hg]
  rfl

theorem balInt_reprF : ∀ (f : Formula), WF f → balInt (reprF f) = 0
  | Formula.var name, h => balInt_no_paren name (is_variable_no_paren name h)
  | Formula.const b, _ => by cases b <;> rfl
  | Formula.unary f, h => by
    show balInt ('~' :: reprF f) = 0
    rw [balInt_cons, balInt_reprF f (WF_unary f h)]
    rfl
  | Formula.binary op f g, h => by
    show balInt ('(' :: (reprF f ++ opChars op ++ reprF g ++ [')'])) = 0
    rw [balInt_cons, balInt_append, balInt_append, balInt_append,
      balInt_reprF f (WF_binary op f g h).1, balInt_reprF g (WF_binary op f g h).2,
      balInt_opChars]
    rfl

theorem scanSafe_reprF : ∀ (f : Formula) (c : Int), WF f → 0 < c → scanSafe c (reprF f)
  | Formula.var name, c, hWF, hc =>
    scanSafe_no_paren name c (by omega) (is_variable_no_paren name hWF)
  | Formula.const b, c, _, hc => by
    cases b <;>
    · refine scanSafe_no_paren _ c (by omega) ?_
      intro x hx
      simp only [reprF] at hx
      first
      | (rw [if_pos rfl] at hx; simp at hx; subst hx; exact ⟨by decide, by decide⟩)
      | (simp at hx; subst hx; exact ⟨by decide, by decide⟩)
  | Formula.unary f, c, hWF, hc => by
    show scanSafe c ('~' :: reprF f)
    rw [scanSafe_cons_eq, if_neg (by decide : ¬('~' = '(')), if_neg (by decide : ¬('~' = ')'))]
    exact ⟨by omega, scanSafe_reprF f c (WF_unary f hWF) hc⟩
  | Formula.binary op f g, c, hWF, hc => by
    show scanSafe c ('(' :: (reprF f ++ opChars op ++ reprF g ++ [')']))
    rw [scanSafe_cons_eq, if_pos rfl]
    have hf := (WF_binary op f g hWF).1
    have hg := (WF_binary op f g hWF).2
    have hA : scanSafe (c + 1) (reprF f) := scanSafe_reprF f (c + 1) hf (by omega)
    have hAB : scanSafe (c + 1) (reprF f ++ opChars op) := by
      refine scanSafe_append _ _ _ hA ?_
      rw [balInt_reprF f hf, add_zero]
      exact scanSafe_no_paren _ _ (by omega) (opChars_no_paren op)
    have hABC : scanSafe (c + 1) (reprF f ++ opChars op ++ reprF g) := by
      refine scanSafe_append _ _ _ hAB ?_
      rw [balInt_append, balInt_reprF f hf, balInt_opChars, add_zero, add_zero]
      exact scanSafe_reprF g (c + 1) hg (by omega)
    refine scanSafe_append _ _ _ hABC ?_
    rw [balInt_append, balInt_append, balInt_reprF f hf, balInt_opChars,
      balInt_reprF g hg]
    norm_num
    rw [scanSafe_cons_eq, if_neg (by decide : ¬(')' = '(')), if_pos rfl]
    trivial

theorem reprF_ne_nil : ∀ (f : Formula), WF f → reprF f ≠ []
  | Formula.var name, hWF => by
    intro hcontra
    rw [show reprF (Formula.var name) = name from rfl] at hcontra
    subst hcontra
    have hbad : is_variable [] = true := hWF
    exact absurd hbad (by decide)
  | Formula.const b, _ => by cases b <;> simp [reprF]
  | Formula.unary f, _ => by simp [reprF]
  | Formula.binary op f g, _ => by simp [reprF]

/-! ## The scanner on canonically rendered strings -/

/-- Suffixes that can follow a rendered sub-formula during parsing: nothing,
or a binary-operator token (`&`, `|`, `->`). -/
def SuffOk (t : List Char) : Prop :=
  t = [] ∨ ∃ c t', t = c :: t' ∧ (c = '&' ∨ c = '|' ∨ c = '-')

theorem takeWhile_all_append (p : Char → Bool) :
    ∀ (ds t : List Char), (∀ x ∈ ds, p x = true) →
      (t = [] ∨ ∃ c t', t = c :: t' ∧ p c = false) →
      (ds ++ t).takeWhile p = ds ∧ (ds ++ t).dropWhile p = t
  | [], t, _, ht => by
    rcases ht with rfl | ⟨c, t', rfl, hc⟩
    · simp
    · simp [List.takeWhile_cons, List.dropWhile_cons, hc]
  | d :: ds, t, hds, ht => by
    have hd : p d = true := hds d (List.mem_cons_self d ds)
    have ih := takeWhile_all_append p ds t (fun x hx => hds x (List.mem_cons_of_mem d hx)) ht
    simp only [List.cons_append, List.takeWhile_cons, List.dropWhile_cons, hd, if_true]
    exact ⟨by rw [ih.1], by rw [ih.2]⟩

theorem SuffOk_head_not_digit (t : List Char) (ht : SuffOk t) :
    t = [] ∨ ∃ c t', t = c :: t' ∧ c.isDigit = false := by
  rcases ht with rfl | ⟨c, t', rfl, hc⟩
  · exact Or.inl rfl
  · refine Or.inr ⟨c, t', rfl, ?_⟩
    rcases hc with rfl | rfl | rfl <;> decide

theorem parse_str_var_token (name t : List Char) (hvar : is_variable name = true)
    (ht : SuffOk t) : parse_str (name ++ t) = (name, t) := by
  cases name with
  | nil => exact absurd hvar (by decide)
  | cons c ds =>
    have hparts : ((decide ('p' ≤ c) && decide (c ≤ 'z')) = true) ∧
        (ds.isEmpty || ds.all (fun d => d.isDigit)) = true := by
      have h := hvar
      rw [show is_variable (c :: ds) =
        ((decide ('p' ≤ c) && decide (c ≤ 'z')) &&
          (ds.isEmpty || ds.all (fun d => d.isDigit))) from rfl, Bool.and_eq_true] at h
      exact h
    have hallds : ∀ x ∈ ds, x.isDigit = true := by
      have h2 := hparts.2
      rw [Bool.or_eq_true] at h2
      rcases h2 with hnil | hall
      · rw [List.isEmpty_iff] at hnil
        subst hnil
        intro x hx
        simp at hx
      · exact List.all_eq_true.1 hall
    have hcvar : is_variable [c] = true := by
      rw [show is_variable [c] =
        ((decide ('p' ≤ c) && decide (c ≤ 'z')) && true) from by simp [is_variable]]
      rw [hparts.1]
      rfl
    rw [List.cons_append, parse_str_cons, if_pos hcvar]
    have htw := takeWhile_all_append (fun d => d.isDigit) ds t hallds
      (SuffOk_head_not_digit t ht)
    rw [htw.1, htw.2]

theorem parse_str_single (c : Char) (t : List Char) (hv : is_variable [c] = false)
    (harrow : ¬(c = '-' ∧ t.head? = some '>')) (hpar : c ≠ '(') :
    parse_str (c :: t) = ([c], t) := by
  rw [parse_str_cons, if_neg (by simp [hv]), if_neg ?_, if_neg hpar]
  intro hcontra
  rw [Bool.and_eq_true, decide_eq_true_eq, decide_eq_true_eq] at hcontra
  exact harrow hcontra

theorem parse_str_op (op : BinOp) (t : List Char) :
    parse_str (opChars op ++ t) = (opChars op, t) := by
  cases op with
  | and =>
    exact parse_str_single '&' t (by decide) (fun h => by exact absurd h.1 (by decide))
      (by decide)
  | or =>
    exact parse_str_single '|' t (by decide) (fun h => by exact absurd h.1 (by decide))
      (by decide)
  | imp =>
    show parse_str ('-' :: ('>' :: t)) = (['-', '>'], t)
    rw [parse_str_cons, if_neg (by decide), if_pos (by simp)]
    rfl

theorem parse_str_paren_repr (inner t : List Char) (hsafe : scanSafe 1 inner)
    (hbal : balInt inner = 0)
    (ht : t = [] ∨ ∃ c t', t = c :: t' ∧ c ≠ '(' ∧ c ≠ ')') :
    parse_str ('(' :: (inner ++ (')' :: t))) = ('(' :: (inner ++ [')']), t) := by
  have hscan : paren_scan ('(' :: (inner ++ (')' :: t))) 0 0 =
      paren_scan t 0 (inner.length + 2) := by
    rw [show paren_scan ('(' :: (inner ++ (')' :: t))) 0 0 =
      paren_scan (inner ++ (')' :: t)) 1 1 from rfl]
    rw [paren_scan_through inner (')' :: t) 1 1 hsafe, hbal]
    rw [show paren_scan (')' :: t) (1 + 0) (1 + inner.length) =
      paren_scan t (1 + 0 - 1) (1 + inner.length + 1) from by
      rw [paren_scan_cons, if_neg (by decide : ¬(')' = '(')), if_pos rfl]]
    rw [show (1 + 0 - 1 : Int) = 0 from by ring,
      show 1 + inner.length + 1 = inner.length + 2 from by omega]
  have hfin : paren_scan t 0 (inner.length + 2) = (inner.length + 2, 0) := by
    rcases ht with rfl | ⟨c, t', rfl, hc1, hc2⟩
    · rfl
    · rw [paren_scan_cons, if_neg hc1, if_neg hc2, if_pos rfl]
  have hshape : '(' :: (inner ++ (')' :: t)) = ('(' :: (inner ++ [')'])) ++ t := by
    simp
  have hlen : ('(' :: (inner ++ [')'])).length = inner.length + 2 := by
    simp
  rw [parse_str_cons, if_neg (by decide : ¬(is_variable ['('] = true)),
    if_neg (by simp : ¬((decide ('(' = '-') && decide ((inner ++ (')' :: t)).head? = some '>')) = true)),
    if_pos rfl, hscan, hfin]
  rw [if_neg (by simp)]
  rw [show ('(' :: (inner ++ (')' :: t))).take (inner.length + 2, (0 : Int)).1 =
      (('(' :: (inner ++ [')'])) ++ t).take ('(' :: (inner ++ [')'])).length from by
    rw [hshape, hlen]]
  rw [show ('(' :: (inner ++ (')' :: t))).drop (inner.length + 2, (0 : Int)).1 =
      (('(' :: (inner ++ [')'])) ++ t).drop ('(' :: (inner ++ [')'])).length from by
    rw [hshape, hlen]]
  rw [List.take_left, List.drop_left]

/-! ## Unfolding the parser -/

theorem parsePrefixF_succ (n : Nat) (s : List Char) :
    parsePrefixF (n + 1) s =
      (if s = [] then ParseRes.fail msgEmpty
      else
        if is_variable (parse_str s).1 || is_constant (parse_str s).1 then
          ParseRes.ok (mkLeaf (parse_str s).1) (parse_str s).2
        else if is_binary (parse_str s).1 then ParseRes.fail s
        else if is_unary (parse_str s).1 then
          (if (parse_str s).2 = [] then ParseRes.fail ((parse_str s).1 ++ msgUnary)
          else
            match parsePrefixF n (parse_str s).2 with
            | ParseRes.ok f r => ParseRes.ok (Formula.unary f) r
            | ParseRes.fail _ => ParseRes.crash
            | ParseRes.crash => ParseRes.crash
            | ParseRes.out => ParseRes.out)
        else if (parse_str s).1.head? = some '(' then
          parenBranch (parsePrefixF n) (parse_str s).1 (parse_str s).2
        else ParseRes.fail (s ++ msgNotValid)) := rfl

theorem parenBranch_def (recur : List Char → ParseRes) (first rest : List Char) :
    parenBranch recur first rest =
      (if first = ['('] then ParseRes.fail msgNotClosed
      else
        match recur first.tail.dropLast with
        | ParseRes.crash => ParseRes.crash
        | ParseRes.out => ParseRes.out
        | r1 =>
          if (toPair r1).2 = [] then ParseRes.fail msgOneFormula
          else
            if is_binary (parse_str (toPair r1).2).1 = false then ParseRes.fail msgConnective
            else
              match recur (parse_str (toPair r1).2).2 with
              | ParseRes.crash => ParseRes.crash
              | ParseRes.out => ParseRes.out
              | r2 =>
                if (toPair r2).2 = [] then
                  finishParen (toPair r1).1 (toPair r2).1 (parse_str (toPair r1).2).1 rest
                else if (toPair r2).1 = none then
                  ParseRes.fail ((toPair r2).2 ++ msgNotValid)
                else ParseRes.fail (msgCouldnt ++ (toPair r2).2 ++ ['!'])) := rfl

theorem binOf_opChars (op : BinOp) : binOf (opChars op) = op := by
  cases op <;> rfl

theorem is_binary_opChars (op : BinOp) : is_binary (opChars op) = true := by
  cases op <;> rfl

theorem opChars_ne_nil (op : BinOp) : opChars op ≠ [] := by
  cases op <;> simp [opChars]

/-- Computation of `parenBranch` when both sub-parses succeed as in a
canonical rendering. -/
theorem parenBranch_ok (recur : List Char → ParseRes) (first rest : List Char)
    (l r : Formula) (conn t1 t2 : List Char)
    (hne1 : first ≠ ['('])
    (h1 : recur first.tail.dropLast = ParseRes.ok l t1)
    (ht1 : t1 ≠ [])
    (hq : parse_str t1 = (conn, t2))
    (hbin : is_binary conn = true)
    (h2 : recur t2 = ParseRes.ok r []) :
    parenBranch recur first rest = ParseRes.ok (Formula.binary (binOf conn) l r) rest := by
  rw [parenBranch_def, if_neg hne1, h1]
  show (if (toPair (ParseRes.ok l t1)).2 = [] then ParseRes.fail msgOneFormula
    else
      if is_binary (parse_str (toPair (ParseRes.ok l t1)).2).1 = false then
        ParseRes.fail msgConnective
      else
        match recur (parse_str (toPair (ParseRes.ok l t1)).2).2 with
        | ParseRes.crash => ParseRes.crash
        | ParseRes.out => ParseRes.out
        | r2 =>
          if (toPair r2).2 = [] then
            finishParen (toPair (ParseRes.ok l t1)).1 (toPair r2).1
              (parse_str (toPair (ParseRes.ok l t1)).2).1 rest
          else if (toPair r2).1 = none then
            ParseRes.fail ((toPair r2).2 ++ msgNotValid)
          else ParseRes.fail (msgCouldnt ++ (toPair r2).2 ++ ['!'])) = _
  rw [show (toPair (ParseRes.ok l t1)).2 = t1 from rfl,
    show (toPair (ParseRes.ok l t1)).1 = some l from rfl, if_neg ht1,
    show (parse_str t1).1 = conn from by rw [hq],
    show (parse_str t1).2 = t2 from by rw [hq],
    if_neg (by rw [hbin]; simp), h2]
  rfl

/-- Completeness of the parser on canonical renderings: every constructible
formula's rendering, followed by an admissible suffix, parses back to the
formula with that suffix as remainder, given enough fuel. -/
theorem parsePrefixF_complete : ∀ (f : Formula), WF f → ∀ (t : List Char), SuffOk t →
    ∃ N, ∀ n, N ≤ n → parsePrefixF n (reprF f ++ t) = ParseRes.ok f t
  | Formula.var name, hWF, t, ht => by
    refine ⟨1, fun n hn => ?_⟩
    obtain ⟨m, rfl⟩ : ∃ m, n = m + 1 := ⟨n - 1, by omega⟩
    have hvar : is_variable name = true := hWF
    have hps : parse_str (name ++ t) = (name, t) := parse_str_var_token name t hvar ht
    have hs : (name ++ t) ≠ [] := by
      intro hcontra
      rw [List.append_eq_nil] at hcontra
      rw [hcontra.1] at hvar
      exact absurd hvar (by decide)
    rw [show reprF (Formula.var name) = name from rfl, parsePrefixF_succ, if_neg hs,
      show (parse_str (name ++ t)).1 = name from by rw [hps],
      show (parse_str (name ++ t)).2 = t from by rw [hps],
      if_pos (show (is_variable name || is_constant name) = true from by rw [hvar]; rfl),
      show mkLeaf name = Formula.var name from by rw [mkLeaf, if_pos hvar]]
  | Formula.const b, _, t, ht => by
    refine ⟨1, fun n hn => ?_⟩
    obtain ⟨m, rfl⟩ : ∃ m, n = m + 1 := ⟨n - 1, by omega⟩
    cases b with
    | true =>
      have hps : parse_str ('T' :: t) = (['T'], t) :=
        parse_str_single 'T' t (by decide) (fun h => absurd h.1 (by decide)) (by decide)
      rw [show reprF (Formula.const true) ++ t = 'T' :: t from rfl, parsePrefixF_succ,
        if_neg (by simp),
        show (parse_str ('T' :: t)).1 = ['T'] from by rw [hps],
        show (parse_str ('T' :: t)).2 = t from by rw [hps],
        if_pos (show (is_variable ['T'] || is_constant ['T']) = true from by decide),
        show mkLeaf ['T'] = Formula.const true from rfl]
    | false =>
      have hps : parse_str ('F' :: t) = (['F'], t) :=
        parse_str_single 'F' t (by decide) (fun h => absurd h.1 (by decide)) (by decide)
      rw [show reprF (Formula.const false) ++ t = 'F' :: t from rfl, parsePrefixF_succ,
        if_neg (by simp),
        show (parse_str ('F' :: t)).1 = ['F'] from by rw [hps],
        show (parse_str ('F' :: t)).2 = t from by rw [hps],
        if_pos (show (is_variable ['F'] || is_constant ['F']) = true from by decide),
        show mkLeaf ['F'] = Formula.const false from rfl]
  | Formula.unary g, hWF, t, ht => by
    obtain ⟨N, hN⟩ := parsePrefixF_complete g (WF_unary g hWF) t ht
    refine ⟨N + 1, fun n hn => ?_⟩
    obtain ⟨m, rfl⟩ : ∃ m, n = m + 1 := ⟨n - 1, by omega⟩
    have hrest : reprF g ++ t ≠ [] := by
      intro hcontra
      rw [List.append_eq_nil] at hcontra
      exact reprF_ne_nil g (WF_unary g hWF) hcontra.1
    have hps : parse_str ('~' :: (reprF g ++ t)) = (['~'], reprF g ++ t) :=
      parse_str_single '~' _ (by decide) (fun h => absurd h.1 (by decide)) (by decide)
    rw [show reprF (Formula.unary g) ++ t = '~' :: (reprF g ++ t) from rfl,
      parsePrefixF_succ, if_neg (by simp),
      show (parse_str ('~' :: (reprF g ++ t))).1 = ['~'] from by rw [hps],
      show (parse_str ('~' :: (reprF g ++ t))).2 = reprF g ++ t from by rw [hps],
      if_neg (by decide), if_neg (by decide),
      if_pos (show is_unary ['~'] = true from by decide), if_neg hrest,
      hN m (by omega)]
  | Formula.binary op l r, hWF, t, ht => by
    have hl := (WF_binary op l r hWF).1
    have hr := (WF_binary op l r hWF).2
    obtain ⟨Nl, hNl⟩ := parsePrefixF_complete l hl (opChars op ++ reprF r) (by
      cases op with
      | and => exact Or.inr ⟨'&', reprF r, rfl, Or.inl rfl⟩
      | or => exact Or.inr ⟨'|', reprF r, rfl, Or.inr (Or.inl rfl)⟩
      | imp => exact Or.inr ⟨'-', '>' :: reprF r, rfl, Or.inr (Or.inr rfl)⟩)
    obtain ⟨Nr, hNr⟩ := parsePrefixF_complete r hr [] (Or.inl rfl)
    refine ⟨Nl + Nr + 1, fun n hn => ?_⟩
    obtain ⟨m, rfl⟩ : ∃ m, n = m + 1 := ⟨n - 1, by omega⟩
    have hsafe : scanSafe 1 (reprF l ++ opChars op ++ reprF r) := by
      have hA : scanSafe 1 (reprF l) := scanSafe_reprF l 1 hl (by omega)
      have hAB : scanSafe 1 (reprF l ++ opChars op) := by
        refine scanSafe_append _ _ _ hA ?_
        rw [balInt_reprF l hl, add_zero]
        exact scanSafe_no_paren _ _ (by omega) (opChars_no_paren op)
      refine scanSafe_append _ _ _ hAB ?_
      rw [balInt_append, balInt_reprF l hl, balInt_opChars, add_zero, add_zero]
      exact scanSafe_reprF r 1 hr (by omega)
    have hbal : balInt (reprF l ++ opChars op ++ reprF r) = 0 := by
      rw [balInt_append, balInt_append, balInt_reprF l hl, balInt_opChars,
        balInt_reprF r hr]
      ring
    have ht' : t = [] ∨ ∃ c t', t = c :: t' ∧ c ≠ '(' ∧ c ≠ ')' := by
      rcases ht with rfl | ⟨c, t', rfl, hc⟩
      · exact Or.inl rfl
      · refine Or.inr ⟨c, t', rfl, ?_⟩
        rcases hc with rfl | rfl | rfl <;> exact ⟨by decide, by decide⟩
    have hps : parse_str ('(' :: ((reprF l ++ opChars op ++ reprF r) ++ (')' :: t))) =
        ('(' :: ((reprF l ++ opChars op ++ reprF r) ++ [')']), t) :=
      parse_str_paren_repr _ t hsafe hbal ht'
    have hshape : reprF (Formula.binary op l r) ++ t =
        '(' :: ((reprF l ++ opChars op ++ reprF r) ++ (')' :: t)) := by
      show '(' :: ((reprF l ++ opChars op ++ reprF r ++ [')']) ++ t) = _
      rw [List.append_assoc (reprF l ++ opChars op ++ reprF r) [')'] t]
      rfl
    have htok : ('(' :: ((reprF l ++ opChars op ++ reprF r) ++ [')'])) =
        reprF (Formula.binary op l r) := rfl
    rw [hshape, parsePrefixF_succ, if_neg (by simp),
      show (parse_str ('(' :: ((reprF l ++ opChars op ++ reprF r) ++ (')' :: t)))).1 =
        '(' :: ((reprF l ++ opChars op ++ reprF r) ++ [')']) from by rw [hps],
      show (parse_str ('(' :: ((reprF l ++ opChars op ++ reprF r) ++ (')' :: t)))).2 = t
        from by rw [hps],
      if_neg (by simp [is_variable, is_constant]), if_neg (by simp [is_binary]),
      if_neg (by simp [is_unary]), if_pos (by simp)]
    have hinner : parsePrefixF m
        (('(' :: ((reprF l ++ opChars op ++ reprF r) ++ [')'])).tail.dropLast) =
        ParseRes.ok l (opChars op ++ reprF r) := by
      rw [show ('(' :: ((reprF l ++ opChars op ++ reprF r) ++ [')'])).tail.dropLast =
          reprF l ++ opChars op ++ reprF r from by
        rw [List.tail_cons, List.dropLast_concat],
        List.append_assoc]
      exact hNl m (by omega)
    have hsecond : parsePrefixF m (reprF r) = ParseRes.ok r [] := by
      have h := hNr m (by omega)
      rwa [List.append_nil] at h
    rw [parenBranch_ok (parsePrefixF m) _ t l r (opChars op) (opChars op ++ reprF r)
      (reprF r) (by simp) hinner
      (by
        intro hcontra
        rw [List.append_eq_nil] at hcontra
        exact opChars_ne_nil op hcontra.1)
      (parse_str_op op (reprF r)) (is_binary_opChars op) hsecond, binOf_opChars]

/-! ## Soundness of the parser -/

theorem is_binary_eq (tok : List Char) (h : is_binary tok = true) :
    tok = ['&'] ∨ tok = ['|'] ∨ tok = ['-', '>'] := by
  simpa [is_binary, decide_eq_true_eq, or_assoc] using h

theorem is_unary_eq (tok : List Char) (h : is_unary tok = true) : tok = ['~'] := by
  simpa [is_unary, decide_eq_true_eq] using h

theorem is_constant_eq (tok : List Char) (h : is_constant tok = true) :
    tok = ['T'] ∨ tok = ['F'] := by
  simpa [is_constant, decide_eq_true_eq] using h

theorem opChars_binOf (tok : List Char) (h : is_binary tok = true) :
    opChars (binOf tok) = tok := by
  rcases is_binary_eq tok h with rfl | rfl | rfl <;> rfl

theorem balInt_is_binary (tok : List Char) (h : is_binary tok = true) :
    balInt tok = 0 := by
  rcases is_binary_eq tok h with rfl | rfl | rfl <;> rfl

theorem reprF_mkLeaf (tok : List Char)
    (h : (is_variable tok || is_constant tok) = true) :
    reprF (mkLeaf tok) = tok ∧ WF (mkLeaf tok) := by
  by_cases hv : is_variable tok = true
  · rw [show mkLeaf tok = Formula.var tok from by rw [mkLeaf, if_pos hv]]
    exact ⟨rfl, hv⟩
  · have hc : is_constant tok = true := by
      rcases Bool.or_eq_true _ _ |>.mp h with h1 | h1
      · exact absurd h1 hv
      · exact h1
    rw [show mkLeaf tok = Formula.const (decide (tok = ['T'])) from by
      rw [mkLeaf, if_neg hv]]
    rcases is_constant_eq tok hc with rfl | rfl
    · exact ⟨rfl, by trivial⟩
    · exact ⟨rfl, by trivial⟩

/-- Soundness of the parenthesised-group branch: an `ok` result renders back
to the consumed token. -/
theorem parenBranch_sound (recur : List Char → ParseRes)
    (hrec : ∀ t g u, recur t = ParseRes.ok g u → t = reprF g ++ u ∧ WF g)
    (first rest : List Char) (f : Formula) (R : List Char)
    (hhead : first.head? = some '(')
    (hbal : first ≠ ['('] → balInt first = 0)
    (h : parenBranch recur first rest = ParseRes.ok f R) :
    first = reprF f ∧ WF f ∧ R = rest := by
  rw [parenBranch_def] at h
  by_cases hne1 : first = ['(']
  · rw [if_pos hne1] at h
    exact ParseRes.noConfusion h
  rw [if_neg hne1] at h
  cases hr1 : recur first.tail.dropLast with
  | crash =>
    rw [hr1] at h
    exact ParseRes.noConfusion h
  | out =>
    rw [hr1] at h
    exact ParseRes.noConfusion h
  | fail msg =>
    rw [hr1] at h
    replace h :
        (if msg = [] then ParseRes.fail msgOneFormula
         else if is_binary (parse_str msg).1 = false then ParseRes.fail msgConnective
         else match recur (parse_str msg).2 with
           | ParseRes.crash => ParseRes.crash
           | ParseRes.out => ParseRes.out
           | r2 =>
             if (toPair r2).2 = [] then
               finishParen none (toPair r2).1 (parse_str msg).1 rest
             else if (toPair r2).1 = none then
               ParseRes.fail ((toPair r2).2 ++ msgNotValid)
             else ParseRes.fail (msgCouldnt ++ (toPair r2).2 ++ ['!'])) =
          ParseRes.ok f R := h
    by_cases hm : msg = []
    · rw [if_pos hm] at h
      exact ParseRes.noConfusion h
    rw [if_neg hm] at h
    by_cases hb : is_binary (parse_str msg).1 = false
    · rw [if_pos hb] at h
      exact ParseRes.noConfusion h
    rw [if_neg hb] at h
    cases hr2 : recur (parse_str msg).2 with
    | crash =>
      rw [hr2] at h
      exact ParseRes.noConfusion h
    | out =>
      rw [hr2] at h
      exact ParseRes.noConfusion h
    | fail m2 =>
      rw [hr2] at h
      replace h :
          (if m2 = [] then finishParen none none (parse_str msg).1 rest
           else if (none : Option Formula) = none then
             ParseRes.fail (m2 ++ msgNotValid)
           else ParseRes.fail (msgCouldnt ++ m2 ++ ['!'])) = ParseRes.ok f R := h
      by_cases hm2 : m2 = []
      · rw [if_pos hm2] at h
        exact ParseRes.noConfusion h
      · rw [if_neg hm2, if_pos rfl] at h
        exact ParseRes.noConfusion h
    | ok g u =>
      rw [hr2] at h
      replace h :
          (if u = [] then finishParen none (some g) (parse_str msg).1 rest
           else if (some g : Option Formula) = none then
             ParseRes.fail (u ++ msgNotValid)
           else ParseRes.fail (msgCouldnt ++ u ++ ['!'])) = ParseRes.ok f R := h
      by_cases hu : u = []
      · rw [if_pos hu] at h
        exact ParseRes.noConfusion h
      · rw [if_neg hu, if_neg (by simp)] at h
        exact ParseRes.noConfusion h
  | ok l t1 =>
    rw [hr1] at h
    replace h :
        (if t1 = [] then ParseRes.fail msgOneFormula
         else if is_binary (parse_str t1).1 = false then ParseRes.fail msgConnective
         else match recur (parse_str t1).2 with
           | ParseRes.crash => ParseRes.crash
           | ParseRes.out => ParseRes.out
           | r2 =>
             if (toPair r2).2 = [] then
               finishParen (some l) (toPair r2).1 (parse_str t1).1 rest
             else if (toPair r2).1 = none then
               ParseRes.fail ((toPair r2).2 ++ msgNotValid)
             else ParseRes.fail (msgCouldnt ++ (toPair r2).2 ++ ['!'])) =
          ParseRes.ok f R := h
    by_cases ht1 : t1 = []
    · rw [if_pos ht1] at h
      exact ParseRes.noConfusion h
    rw [if_neg ht1] at h
    by_cases hb : is_binary (parse_str t1).1 = false
    · rw [if_pos hb] at h
      exact ParseRes.noConfusion h
    rw [if_neg hb] at h
    have hbin : is_binary (parse_str t1).1 = true := by
      cases hv : is_binary (parse_str t1).1 with
      | false => exact absurd hv hb
      | true => rfl
    cases hr2 : recur (parse_str t1).2 with
    | crash =>
      rw [hr2] at h
      exact ParseRes.noConfusion h
    | out =>
      rw [hr2] at h
      exact ParseRes.noConfusion h
    | fail m2 =>
      rw [hr2] at h
      replace h :
          (if m2 = [] then finishParen (some l) none (parse_str t1).1 rest
           else if (none : Option Formula) = none then
             ParseRes.fail (m2 ++ msgNotValid)
           else ParseRes.fail (msgCouldnt ++ m2 ++ ['!'])) = ParseRes.ok f R := h
      by_cases hm2 : m2 = []
      · rw [if_pos hm2] at h
        exact ParseRes.noConfusion h
      · rw [if_neg hm2, if_pos rfl] at h
        exact ParseRes.noConfusion h
    | ok rf u =>
      rw [hr2] at h
      replace h :
          (if u = [] then finishParen (some l) (some rf) (parse_str t1).1 rest
           else if (some rf : Option Formula) = none then
             ParseRes.fail (u ++ msgNotValid)
           else ParseRes.fail (msgCouldnt ++ u ++ ['!'])) = ParseRes.ok f R := h
      by_cases hu : u = []
      · rw [if_pos hu] at h
        subst hu
        replace h : ParseRes.ok (Formula.binary (binOf (parse_str t1).1) l rf) rest =
            ParseRes.ok f R := h
        obtain ⟨hf, hR⟩ : Formula.binary (binOf (parse_str t1).1) l rf = f ∧ rest = R := by
          cases h
          exact ⟨rfl, rfl⟩
        obtain ⟨hinner, hWFl⟩ := hrec _ _ _ hr1
        obtain ⟨hq2, hWFr⟩ := hrec _ _ _ hr2
        rw [List.append_nil] at hq2
        have hsplit1 : (parse_str t1).1 ++ (parse_str t1).2 = t1 := parse_str_split t1 ht1
        cases hfirst : first with
        | nil =>
          rw [hfirst] at hhead
          simp at hhead
        | cons c ftail =>
          rw [hfirst] at hhead
          simp only [List.head?_cons, Option.some.injEq] at hhead
          subst hhead
          have hftne : ftail ≠ [] := by
            intro hcontra
            rw [hcontra] at hfirst
            exact hne1 hfirst
          have hdecomp : ftail.dropLast ++ [ftail.getLast hftne] = ftail :=
            List.dropLast_append_getLast hftne
          have hinterior : ftail.dropLast = reprF l ++ t1 := by
            rw [hfirst] at hinner
            simpa using hinner
          have hbal0 : balInt first = 0 := hbal hne1
          have hballast : balInt [ftail.getLast hftne] = -1 := by
            rw [hfirst] at hbal0
            rw [show balInt ('(' :: ftail) = 1 + balInt ftail from by
              rw [balInt_cons, if_pos rfl], ← hdecomp, balInt_append, hinterior,
              balInt_append, balInt_reprF l hWFl, ← hsplit1, balInt_append,
              balInt_is_binary _ hbin, hq2, balInt_reprF rf hWFr] at hbal0
            omega
          have hlast : ftail.getLast hftne = ')' :=
            balInt_singleton_eq_neg_one _ hballast
          refine ⟨?_, ?_, hR.symm⟩
          · rw [← hf]
            show '(' :: ftail =
              '(' :: (reprF l ++ opChars (binOf (parse_str t1).1) ++ reprF rf ++ [')'])
            have ht1eq : t1 = (parse_str t1).1 ++ reprF rf := by
              conv_lhs => rw [← hsplit1, hq2]
            rw [opChars_binOf _ hbin]
            conv_lhs => rw [← hdecomp, hlast, hinterior, ht1eq]
            simp [List.append_assoc]
          · rw [← hf]
            exact WF_binary_intro _ l rf hWFl hWFr
      · rw [if_neg hu, if_neg (by simp)] at h
        exact ParseRes.noConfusion h

/-- Soundness of `_parse_prefix`: whenever it returns a formula and a
remainder, the input was exactly the formula's rendering followed by the
remainder, and the formula is well-formed. -/
theorem parsePrefixF_sound : ∀ (n : Nat) (s : List Char) (f : Formula) (rest : List Char),
    parsePrefixF n s = ParseRes.ok f rest → s = reprF f ++ rest ∧ WF f := by
  intro n
  induction n with
  | zero =>
    intro s f rest h
    exact ParseRes.noConfusion h
  | succ n ih =>
    intro s f rest h
    rw [parsePrefixF_succ] at h
    by_cases hs : s = []
    · rw [if_pos hs] at h
      exact ParseRes.noConfusion h
    rw [if_neg hs] at h
    by_cases hleaf : (is_variable (parse_str s).1 || is_constant (parse_str s).1) = true
    · rw [if_pos hleaf] at h
      obtain ⟨hf, hrest⟩ : mkLeaf (parse_str s).1 = f ∧ (parse_str s).2 = rest := by
        cases h
        exact ⟨rfl, rfl⟩
      obtain ⟨hrepr, hwf⟩ := reprF_mkLeaf _ hleaf
      refine ⟨?_, hf ▸ hwf⟩
      rw [← hf, ← hrest, hrepr]
      exact (parse_str_split s hs).symm
    rw [if_neg hleaf] at h
    by_cases hbin : is_binary (parse_str s).1 = true
    · rw [if_pos hbin] at h
      exact ParseRes.noConfusion h
    rw [if_neg hbin] at h
    by_cases huna : is_unary (parse_str s).1 = true
    · rw [if_pos huna] at h
      by_cases hre : (parse_str s).2 = []
      · rw [if_pos hre] at h
        exact ParseRes.noConfusion h
      rw [if_neg hre] at h
      cases hsub : parsePrefixF n (parse_str s).2 with
      | crash =>
        rw [hsub] at h
        exact ParseRes.noConfusion h
      | out =>
        rw [hsub] at h
        exact ParseRes.noConfusion h
      | fail m =>
        rw [hsub] at h
        exact ParseRes.noConfusion h
      | ok g u =>
        rw [hsub] at h
        obtain ⟨hf, hrest⟩ : Formula.unary g = f ∧ u = rest := by
          cases h
          exact ⟨rfl, rfl⟩
        obtain ⟨hg, hwfg⟩ := ih _ _ _ hsub
        refine ⟨?_, ?_⟩
        · rw [← hf]
          show s = ('~' :: reprF g) ++ rest
          conv_lhs => rw [← parse_str_split s hs, is_unary_eq _ huna, hg, hrest]
          rfl
        · rw [← hf]
          exact hwfg
    rw [if_neg huna] at h
    by_cases hpar : (parse_str s).1.head? = some '('
    · rw [if_pos hpar] at h
      obtain ⟨h1, h2, h3⟩ := parenBranch_sound (parsePrefixF n) ih
        (parse_str s).1 (parse_str s).2 f rest hpar
        (fun hne => parse_str_paren_bal s hs hpar hne) h
      refine ⟨?_, h2⟩
      conv_lhs => rw [← parse_str_split s hs, h1, ← h3]
    · rw [if_neg hpar] at h
      exact ParseRes.noConfusion h

theorem append_right_ne_nil (a b : List Char) (hb : b ≠ []) : a ++ b ≠ [] := by
  intro hc
  rw [List.append_eq_nil] at hc
  exact hb hc.2

theorem parenBranch_fail_ne_nil (recur : List Char → ParseRes)
    (first rest m : List Char)
    (h : parenBranch recur first rest = ParseRes.fail m) : m ≠ [] := by
  rw [parenBranch_def] at h
  by_cases hne1 : first = ['(']
  · rw [if_pos hne1] at h
    cases h
    decide
  rw [if_neg hne1] at h
  cases hr1 : recur first.tail.dropLast with
  | crash =>
    rw [hr1] at h
    exact ParseRes.noConfusion h
  | out =>
    rw [hr1] at h
    exact ParseRes.noConfusion h
  | fail msg =>
    rw [hr1] at h
    replace h :
        (if msg = [] then ParseRes.fail msgOneFormula
         else if is_binary (parse_str msg).1 = false then ParseRes.fail msgConnective
         else match recur (parse_str msg).2 with
           | ParseRes.crash => ParseRes.crash
           | ParseRes.out => ParseRes.out
           | r2 =>
             if (toPair r2).2 = [] then
               finishParen none (toPair r2).1 (parse_str msg).1 rest
             else if (toPair r2).1 = none then
               ParseRes.fail ((toPair r2).2 ++ msgNotValid)
             else ParseRes.fail (msgCouldnt ++ (toPair r2).2 ++ ['!'])) =
          ParseRes.fail m := h
    by_cases hm : msg = []
    · rw [if_pos hm] at h
      cases h
      decide
    rw [if_neg hm] at h
    by_cases hb : is_binary (parse_str msg).1 = false
    · rw [if_pos hb] at h
      cases h
      decide
    rw [if_neg hb] at h
    cases hr2 : recur (parse_str msg).2 with
    | crash =>
      rw [hr2] at h
      exact ParseRes.noConfusion h
    | out =>
      rw [hr2] at h
      exact ParseRes.noConfusion h
    | fail m2 =>
      rw [hr2] at h
      replace h :
          (if m2 = [] then finishParen none none (parse_str msg).1 rest
           else if (none : Option Formula) = none then
             ParseRes.fail (m2 ++ msgNotValid)
           else ParseRes.fail (msgCouldnt ++ m2 ++ ['!'])) = ParseRes.fail m := h
      by_cases hm2 : m2 = []
      · rw [if_pos hm2] at h
        exact ParseRes.noConfusion h
      · rw [if_neg hm2, if_pos rfl] at h
        cases h
        exact append_right_ne_nil _ _ (by decide)
    | ok g u =>
      rw [hr2] at h
      replace h :
          (if u = [] then finishParen none (some g) (parse_str msg).1 rest
           else if (some g : Option Formula) = none then
             ParseRes.fail (u ++ msgNotValid)
           else ParseRes.fail (msgCouldnt ++ u ++ ['!'])) = ParseRes.fail m := h
      by_cases hu : u = []
      · rw [if_pos hu] at h
        exact ParseRes.noConfusion h
      · rw [if_neg hu, if_neg (by simp)] at h
        cases h
        exact append_right_ne_nil _ _ (by decide)
  | ok l t1 =>
    rw [hr1] at h
    replace h :
        (if t1 = [] then ParseRes.fail msgOneFormula
         else if is_binary (parse_str t1).1 = false then ParseRes.fail msgConnective
         else match recur (parse_str t1).2 with
           | ParseRes.crash => ParseRes.crash
           | ParseRes.out => ParseRes.out
           | r2 =>
             if (toPair r2).2 = [] then
               finishParen (some l) (toPair r2).1 (parse_str t1).1 rest
             else if (toPair r2).1 = none then
               ParseRes.fail ((toPair r2).2 ++ msgNotValid)
             else ParseRes.fail (msgCouldnt ++ (toPair r2).2 ++ ['!'])) =
          ParseRes.fail m := h
    by_cases ht1 : t1 = []
    · rw [if_pos ht1] at h
      cases h
      decide
    rw [if_neg ht1] at h
    by_cases hb : is_binary (parse_str t1).1 = false
    · rw [if_pos hb] at h
      cases h
      decide
    rw [if_neg hb] at h
    cases hr2 : recur (parse_str t1).2 with
    | crash =>
      rw [hr2] at h
      exact ParseRes.noConfusion h
    | out =>
      rw [hr2] at h
      exact ParseRes.noConfusion h
    | fail m2 =>
      rw [hr2] at h
      replace h :
          (if m2 = [] then finishParen (some l) none (parse_str t1).1 rest
           else if (none : Option Formula) = none then
             ParseRes.fail (m2 ++ msgNotValid)
           else ParseRes.fail (msgCouldnt ++ m2 ++ ['!'])) = ParseRes.fail m := h
      by_cases hm2 : m2 = []
      · rw [if_pos hm2] at h
        exact ParseRes.noConfusion h
      · rw [if_neg hm2, if_pos rfl] at h
        cases h
        exact append_right_ne_nil _ _ (by decide)
    | ok rf u =>
      rw [hr2] at h
      replace h :
          (if u = [] then finishParen (some l) (some rf) (parse_str t1).1 rest
           else if (some rf : Option Formula) = none then
             ParseRes.fail (u ++ msgNotValid)
           else ParseRes.fail (msgCouldnt ++ u ++ ['!'])) = ParseRes.fail m := h
      by_cases hu : u = []
      · rw [if_pos hu] at h
        replace h : ParseRes.ok (Formula.binary (binOf (parse_str t1).1) l rf) rest =
            ParseRes.fail m := h
        exact ParseRes.noConfusion h
      · rw [if_neg hu, if_neg (by simp)] at h
        cases h
        exact append_right_ne_nil _ _ (by decide)

/-- A failing `_parse_prefix` run always carries a non-empty error message, so
`is_formula` never mistakes a failure for success. -/
theorem parsePrefixF_fail_ne_nil (n : Nat) (s m : List Char)
    (h : parsePrefixF n s = ParseRes.fail m) : m ≠ [] := by
  cases n with
  | zero => exact ParseRes.noConfusion h
  | succ n =>
    rw [parsePrefixF_succ] at h
    by_cases hs : s = []
    · rw [if_pos hs] at h
      cases h
      decide
    rw [if_neg hs] at h
    by_cases hleaf : (is_variable (parse_str s).1 || is_constant (parse_str s).1) = true
    · rw [if_pos hleaf] at h
      exact ParseRes.noConfusion h
    rw [if_neg hleaf] at h
    by_cases hbin : is_binary (parse_str s).1 = true
    · rw [if_pos hbin] at h
      cases h
      exact hs
    rw [if_neg hbin] at h
    by_cases huna : is_unary (parse_str s).1 = true
    · rw [if_pos huna] at h
      by_cases hre : (parse_str s).2 = []
      · rw [if_pos hre] at h
        cases h
        exact append_right_ne_nil _ _ (by decide)
      rw [if_neg hre] at h
      cases hsub : parsePrefixF n (parse_str s).2 with
      | crash =>
        rw [hsub] at h
        exact ParseRes.noConfusion h
      | out =>
        rw [hsub] at h
        exact ParseRes.noConfusion h
      | fail m2 =>
        rw [hsub] at h
        exact ParseRes.noConfusion h
      | ok g u =>
        rw [hsub] at h
        exact ParseRes.noConfusion h
    rw [if_neg huna] at h
    by_cases hpar : (parse_str s).1.head? = some '('
    · rw [if_pos hpar] at h
      exact parenBranch_fail_ne_nil _ _ _ _ h
    · rw [if_neg hpar] at h
      cases h
      exact append_right_ne_nil _ _ (by decide)

/-- C2: round trip between `parse` and the canonical rendering `__repr__`.
(1) For every string `s` accepted by `is_formula` (at any sufficient recursion
depth), `parse` returns a formula whose rendering is exactly `s`; (2) for every
formula tree `f` constructible by `Formula.__init__` (i.e. well-formed), some
recursion depth makes `parse` of `f`'s rendering return `f` itself. -/
theorem C2_roundtrip :
    (∀ (n : Nat) (s : List Char), is_formula n s = some true →
      ∃ f : Formula, parse n s = some f ∧ reprF f = s) ∧
    (∀ f : Formula, WF f → ∃ n : Nat, parse n (reprF f) = some f) := by
  constructor
  · intro n s h
    cases hp : parsePrefixF n s with
    | ok f r =>
      have hform : is_formula n s = some r.isEmpty := by
        simp only [is_formula]
        rw [hp]
      rw [hform] at h
      have hr : r = [] := by
        simpa using Option.some.inj h
      obtain ⟨hsEq, _⟩ := parsePrefixF_sound n s f r hp
      refine ⟨f, ?_, ?_⟩
      · simp only [parse]
        rw [hp, hr]
        rfl
      · rw [hsEq, hr, List.append_nil]
    | fail m =>
      have hform : is_formula n s = some m.isEmpty := by
        simp only [is_formula]
        rw [hp]
      rw [hform] at h
      have hm : m = [] := by
        simpa using Option.some.inj h
      exact absurd hm (parsePrefixF_fail_ne_nil n s m hp)
    | crash =>
      have hform : is_formula n s = none := by
        simp only [is_formula]
        rw [hp]
      rw [hform] at h
      exact Option.noConfusion h
    | out =>
      have hform : is_formula n s = none := by
        simp only [is_formula]
        rw [hp]
      rw [hform] at h
      exact Option.noConfusion h
  · intro f hWF
    obtain ⟨N, hN⟩ := parsePrefixF_complete f hWF [] (Or.inl rfl)
    have hp : parsePrefixF N (reprF f) = ParseRes.ok f [] := by
      have hstep := hN N (le_refl N)
      rwa [List.append_nil] at hstep
    refine ⟨N, ?_⟩
    simp only [parse]
    rw [hp]
    rfl

theorem C2_roundtrip_witness :
    is_formula 10 ['(', 'p', '&', 'q', ')'] = some true ∧
    (∃ f : Formula, parse 10 ['(', 'p', '&', 'q', ')'] = some f ∧
      reprF f = ['(', 'p', '&', 'q', ')']) ∧
    WF (Formula.unary (Formula.var ['p'])) ∧
    (∃ n : Nat, parse n (reprF (Formula.unary (Formula.var ['p']))) =
      some (Formula.unary (Formula.var ['p']))) :=
  ⟨by decide, C2_roundtrip.1 10 _ (by decide),
    (by decide : WFb (Formula.unary (Formula.var ['p'])) = true),
    C2_roundtrip.2 (Formula.unary (Formula.var ['p']))
      (by decide : WFb (Formula.unary (Formula.var ['p'])) = true)⟩
